import Mathlib

/-!
Verification of the CBC padding-oracle decryptor (`decrypt` in src/lib.rs).

Bytes are modelled as natural numbers (Rust `u8` values are below 256, and
the theorems carry that bound where it matters).  Rust runtime panics
(index out of bounds, `usize` underflow, `% 0`) are modelled explicitly:
fallible list accesses go through `List.get?`, checked subtraction through
`subChk`, and a dedicated `panic` outcome is threaded through the result
types.  Every oracle invocation is recorded in a query trace, so the
oracle-call-count properties are statements about the trace length.
-/

namespace PaddingOracle

/-- Byte strings: each entry stands for one `u8` value. -/
abbrev Bytes := List Nat

/-- The byte at index `n`, defaulting to 0 (bounds are tracked separately). -/
def nth (l : Bytes) (n : Nat) : Nat := l[n]?.getD 0

/-- The error enum of src/lib.rs: `WrongSize { blocksize, found }` and
`InvalidPadding`. -/
inductive Error
  | WrongSize (blocksize found : Nat)
  | InvalidPadding
deriving DecidableEq

/-- Outcome of a call to `decrypt`: `Ok(plaintext)`, `Err(e)`, or a Rust
runtime panic. -/
inductive DResult
  | ok (plaintext : Bytes)
  | err (e : Error)
  | panic
deriving DecidableEq

/-- Outcome of the 256-candidate scan (`(0..=255u8).find_map(...)` in
src/lib.rs): a confirmed candidate, exhaustion, or a panic. -/
inductive ScanOut
  | found (k : Nat)
  | exhausted
  | panic
deriving DecidableEq

/-- Checked `usize` subtraction: `none` models a Rust underflow panic. -/
def subChk (a b : Nat) : Option Nat := if b ≤ a then some (a - b) else none

/-- The candidate scan of src/lib.rs lines 93-111: for each `k` in the given
candidate list (the call site passes `0..=255`), write `k` at `offset`,
query the oracle, and on success either accept immediately (when
`offset % blocksize == 0`) or re-query on a copy whose byte at `offset - 1`
is complemented (`!x` on `u8` is `255 ^^^ x`).  The second component
collects every ciphertext submitted to the oracle, in order. -/
def findK (oracle : Bytes → Bool) (blocksize offset : Nat) (c : Bytes) :
    List Nat → ScanOut × List Bytes
  | [] => (ScanOut.exhausted, [])
  | k :: ks =>
    if offset < c.length then
      let c1 := c.set offset k
      if oracle c1 then
        if offset % blocksize = 0 then (ScanOut.found k, [c1])
        else
          match c1[offset - 1]? with
          | none => (ScanOut.panic, [c1])
          | some v =>
            let c2 := c1.set (offset - 1) (255 ^^^ v)
            if oracle c2 then (ScanOut.found k, [c1, c2])
            else
              let r := findK oracle blocksize offset c ks
              (r.1, c1 :: c2 :: r.2)
      else
        let r := findK oracle blocksize offset c ks
        (r.1, c1 :: r.2)
    else (ScanOut.panic, [])

/-- The `for j in 1..i` loop of src/lib.rs lines 88-90, over an explicit
list of the values of `j`:
`ciphertext[offset + j] = i as u8 ^ plaintext[j - 1] ^ ciphertext[offset + j]`.
`none` models an out-of-bounds index panic. -/
def fixLoop (offset i : Nat) (pt : Bytes) : List Nat → Bytes → Option Bytes
  | [], c => some c
  | j :: js, c =>
    match getElem? pt (j - 1), getElem? c (offset + j) with
    | some pb, some cb =>
      fixLoop offset i pt js (c.set (offset + j) ((i % 256) ^^^ pb ^^^ cb))
    | _, _ => none

/-- Fix the already-solved trailing bytes of the block (`for j in 1..i`). -/
def fixPadding (offset i : Nat) (pt c : Bytes) : Option Bytes :=
  fixLoop offset i pt (List.range' 1 (i - 1)) c

/-- The `for i in 1..=blocksize` loop of src/lib.rs lines 81-114, over an
explicit list of the values of `i` (the call site passes `1..=blocksize`).
State: `pt` is the plaintext accumulator, `cw` the working ciphertext. -/
def solveBlock (oracle : Bytes → Bool) (blocksize : Nat) :
    List Nat → Bytes → Bytes → DResult × List Bytes
  | [], pt, _ => (DResult.ok pt, [])
  | i :: rest, pt, cw =>
    match subChk cw.length (blocksize + i) with
    | none => (DResult.panic, [])
    | some offset =>
      match cw[offset]? with
      | none => (DResult.panic, [])
      | some initial =>
        match fixPadding offset i pt cw with
        | none => (DResult.panic, [])
        | some c1 =>
          match findK oracle blocksize offset c1 (List.range 256) with
          | (ScanOut.found k, qs) =>
            let r := solveBlock oracle blocksize rest
              ((initial ^^^ k ^^^ (i % 256)) :: pt) cw
            (r.1, qs ++ r.2)
          | (ScanOut.exhausted, qs) => (DResult.err Error.InvalidPadding, qs)
          | (ScanOut.panic, qs) => (DResult.panic, qs)

/-- The outer `for _ in 0..ciphertext.len() / blocksize - 1` loop of
src/lib.rs lines 80-118; `n` is the (pre-computed) iteration count and
`cw.take`/`subChk` model `ciphertext.truncate(ciphertext.len() - blocksize)`. -/
def solveBlocks (oracle : Bytes → Bool) (blocksize : Nat) :
    Nat → Bytes → Bytes → DResult × List Bytes
  | 0, pt, _ => (DResult.ok pt, [])
  | n + 1, pt, cw =>
    match solveBlock oracle blocksize (List.range' 1 blocksize) pt cw with
    | (DResult.ok pt2, qs) =>
      match subChk cw.length blocksize with
      | none => (DResult.panic, qs)
      | some newlen =>
        let r := solveBlocks oracle blocksize n pt2 (cw.take newlen)
        (r.1, qs ++ r.2)
    | (DResult.err e, qs) => (DResult.err e, qs)
    | (DResult.panic, qs) => (DResult.panic, qs)

/-- `decrypt` of src/lib.rs, instrumented with the oracle-query trace.
`blocksize = 0` makes `ciphertext.len() % blocksize` panic in Rust, and
`ciphertext.len() / blocksize - 1` is a `usize` subtraction that panics
on underflow (that is, when `ciphertext` is shorter than one block). -/
def decryptT (ciphertext : Bytes) (blocksize : Nat) (oracle : Bytes → Bool) :
    DResult × List Bytes :=
  if blocksize = 0 then (DResult.panic, [])
  else if ciphertext.length % blocksize ≠ 0 then
    (DResult.err (Error.WrongSize blocksize ciphertext.length), [])
  else
    match subChk (ciphertext.length / blocksize) 1 with
    | none => (DResult.panic, [])
    | some n => solveBlocks oracle blocksize n [] ciphertext

/-- The result of `decrypt` (src/lib.rs lines 68-122). -/
def decrypt (ciphertext : Bytes) (blocksize : Nat) (oracle : Bytes → Bool) :
    DResult :=
  (decryptT ciphertext blocksize oracle).1

/-- Number of oracle invocations a call to `decrypt` performs. -/
def oracleCalls (ciphertext : Bytes) (blocksize : Nat) (oracle : Bytes → Bool) :
    Nat :=
  (decryptT ciphertext blocksize oracle).2.length

/-! ## External collaborators, modelled from the spec

The block cipher, CBC mode, PKCS#7 padding and the padding oracle are not
part of this repository (the spec declares them external collaborators);
they are modelled here from the spec's §3, §6 and glossary wording. -/

/-- Modelled from the spec: byte-wise XOR of two equally long byte strings
(the CBC chaining operation; CBC itself is not in src/). -/
def xorBytes (x y : Bytes) : Bytes := List.zipWith (fun a c => a ^^^ c) x y

/-- Modelled from the spec: PKCS#7 padding (glossary: the last `p` bytes of
the final block all equal `p`, `1 ≤ p ≤ blocksize`); PKCS#7 is not in src/. -/
def pkcs7pad (b : Nat) (P : Bytes) : Bytes :=
  let p := b - P.length % b
  P ++ List.replicate p p

/-- Modelled from the spec: syntactic PKCS#7 validity of a decrypted
message (the oracle's accept condition; the padding check is not in src/):
the last byte `v` satisfies `1 ≤ v ≤ blocksize` and the last `v` bytes of
the message all equal `v`. -/
def pkcs7valid (b : Nat) (msg : Bytes) : Bool :=
  let v := nth msg (msg.length - 1)
  decide (1 ≤ v) && decide (v ≤ b) && decide (v ≤ msg.length) &&
    (msg.drop (msg.length - v)).all (fun y => y == v)

/-- Modelled from the spec: CBC encryption of `n` blocks with chaining value
`prev` (glossary; encryption is out of scope of src/). -/
def cbcEncAux (encB : Bytes → Bytes) (b : Nat) (prev : Bytes) :
    Nat → Bytes → Bytes
  | 0, _ => []
  | n + 1, p =>
    let c := encB (xorBytes (p.take b) prev)
    c ++ cbcEncAux encB b c n (p.drop b)

/-- Modelled from the spec: CBC-encrypt the PKCS#7-padded plaintext under
block cipher `encB` and IV `iv`, prepending the IV as the first block. -/
def encryptCbc (encB : Bytes → Bytes) (b : Nat) (iv P : Bytes) : Bytes :=
  let padded := pkcs7pad b P
  iv ++ cbcEncAux encB b iv (padded.length / b) padded

/-- Modelled from the spec: CBC decryption of `n` blocks with chaining value
`prev` (glossary; decryption inside the oracle is out of scope of src/). -/
def cbcDecAux (decB : Bytes → Bytes) (b : Nat) (prev : Bytes) :
    Nat → Bytes → Bytes
  | 0, _ => []
  | n + 1, s =>
    xorBytes (decB (s.take b)) prev ++ cbcDecAux decB b (s.take b) n (s.drop b)

/-- Modelled from the spec: the padding oracle (§6, glossary): report
whether the candidate, CBC-decrypted under the fixed key/IV, carries valid
PKCS#7 padding (misaligned or empty input never decrypts validly). -/
def cbcOracle (decB : Bytes → Bytes) (b : Nat) (iv : Bytes) (s : Bytes) :
    Bool :=
  (s.length % b == 0) && decide (0 < s.length) &&
    pkcs7valid b (cbcDecAux decB b iv (s.length / b) s)

/-- Block `w` (0-based) of a byte string partitioned into blocks of `b`. -/
def blkOf (s : Bytes) (b w : Nat) : Bytes := (s.drop (w * b)).take b

/-- Every entry is a `u8` value. -/
def validBytes (x : Bytes) : Prop := ∀ y ∈ x, y < 256

/-- An adversarial oracle: accepts a candidate exactly when its first byte
still carries the value 7 (so every initial query at offset 1 passes and
every confirmation re-query, which complements byte 0, fails). -/
def stubbornOracle (s : Bytes) : Bool := nth s 0 == 7

/-- The spec's candidate-confirmation rule (§4.1 step 4), stated as a
predicate on one candidate `k`: the oracle accepts the working copy with
`k` at `offset`, and either `offset` starts its block or the oracle also
accepts the copy whose byte at `offset - 1` is complemented. -/
def confB (oracle : Bytes → Bool) (blocksize offset : Nat) (c : Bytes)
    (k : Nat) : Bool :=
  let c1 := c.set offset k
  oracle c1 && (decide (offset % blocksize = 0) ||
    oracle (c1.set (offset - 1) (255 ^^^ nth c1 (offset - 1))))

/-! ## Indexing helpers -/

theorem nth_nil (n : Nat) : nth [] n = 0 := by simp [nth]

theorem nth_cons_zero (a : Nat) (l : Bytes) : nth (a :: l) 0 = a := by
  simp [nth]

theorem nth_cons_succ (a : Nat) (l : Bytes) (n : Nat) :
    nth (a :: l) (n + 1) = nth l n := by
  simp only [nth, List.getElem?_cons_succ]

theorem getElem?_eq_some_nth {l : Bytes} {n : Nat} (h : n < l.length) :
    l[n]? = some (nth l n) := by
  cases hx : l[n]? with
  | none => exact absurd (List.getElem?_eq_none_iff.mp hx) (by omega)
  | some a => simp only [nth, hx, Option.getD_some]

theorem nth_append_left {xs : Bytes} (ys : Bytes) {n : Nat}
    (h : n < xs.length) : nth (xs ++ ys) n = nth xs n := by
  induction xs generalizing n with
  | nil => simp at h
  | cons a t ih =>
    cases n with
    | zero => simp [nth]
    | succ m =>
      simp only [List.cons_append, nth_cons_succ]
      exact ih (by simpa using h)

theorem nth_append_right (xs ys : Bytes) (m : Nat) :
    nth (xs ++ ys) (xs.length + m) = nth ys m := by
  induction xs with
  | nil => simp
  | cons a t ih =>
    simpa [List.cons_append, Nat.succ_add, nth_cons_succ] using ih

theorem nth_take {l : Bytes} {w n : Nat} (h : n < w) :
    nth (l.take w) n = nth l n := by
  induction w generalizing l n with
  | zero => omega
  | succ w ih =>
    cases l with
    | nil => simp
    | cons a t =>
      cases n with
      | zero => simp [nth]
      | succ m =>
        simp only [List.take_succ_cons, nth_cons_succ]
        exact ih (by omega)

theorem nth_drop (l : Bytes) (w n : Nat) : nth (l.drop w) n = nth l (w + n) := by
  induction w generalizing l with
  | zero => simp
  | succ w ih =>
    cases l with
    | nil => simp [nth]
    | cons a t =>
      have : w + 1 + n = (w + n) + 1 := by omega
      simp only [List.drop_succ_cons, ih t, this, nth_cons_succ]

theorem nth_set_self {l : Bytes} {n : Nat} (v : Nat) (h : n < l.length) :
    nth (l.set n v) n = v := by
  induction l generalizing n with
  | nil => simp at h
  | cons a t ih =>
    cases n with
    | zero => simp [nth]
    | succ m =>
      simp only [List.set_cons_succ, nth_cons_succ]
      exact ih (by simpa using h)

theorem nth_set_ne {m n : Nat} (l : Bytes) (v : Nat) (h : m ≠ n) :
    nth (l.set m v) n = nth l n := by
  induction l generalizing m n with
  | nil => simp
  | cons a t ih =>
    cases m with
    | zero =>
      cases n with
      | zero => omega
      | succ n2 => simp [nth]
    | succ m2 =>
      cases n with
      | zero => simp [nth]
      | succ n2 =>
        simp only [List.set_cons_succ, nth_cons_succ]
        exact ih (by omega)

theorem length_xorBytes (x y : Bytes) :
    (xorBytes x y).length = min x.length y.length := by
  simp [xorBytes]

theorem nth_xorBytes {x y : Bytes} {n : Nat} (hx : n < x.length)
    (hy : n < y.length) : nth (xorBytes x y) n = nth x n ^^^ nth y n := by
  induction x generalizing y n with
  | nil => simp at hx
  | cons a t ih =>
    cases y with
    | nil => simp at hy
    | cons c u =>
      cases n with
      | zero => simp [xorBytes, nth]
      | succ m =>
        simp only [xorBytes, List.zipWith_cons_cons, nth_cons_succ]
        exact ih (by simpa using hx) (by simpa using hy)

theorem nth_replicate {c n v : Nat} (h : n < c) :
    nth (List.replicate c v) n = v := by
  induction c generalizing n with
  | zero => omega
  | succ m ih =>
    cases n with
    | zero => simp [nth]
    | succ k =>
      simp only [List.replicate_succ, nth_cons_succ]
      exact ih (by omega)

theorem drop_set_lt {a w : Nat} (l : Bytes) (v : Nat) (h : a < w) :
    (l.set a v).drop w = l.drop w := by
  induction l generalizing a w with
  | nil => simp
  | cons x t ih =>
    cases a with
    | zero =>
      cases w with
      | zero => omega
      | succ w2 => simp
    | succ a2 =>
      cases w with
      | zero => omega
      | succ w2 =>
        simp only [List.set_cons_succ, List.drop_succ_cons]
        exact ih (by omega)

/-! ## The candidate scan: characterization and call counts -/

section FindKLemmas

variable {oracle : Bytes → Bool} {blocksize offset : Nat} {c : Bytes}
variable {k : Nat} {ks : List Nat}

theorem findK_nil : findK oracle blocksize offset c [] =
    (ScanOut.exhausted, []) := rfl

theorem findK_cons_oob (h : ¬ offset < c.length) :
    findK oracle blocksize offset c (k :: ks) = (ScanOut.panic, []) := by
  simp [findK, h]

theorem findK_cons_no (h : offset < c.length)
    (hq : oracle (c.set offset k) = false) :
    findK oracle blocksize offset c (k :: ks) =
      ((findK oracle blocksize offset c ks).1,
        c.set offset k :: (findK oracle blocksize offset c ks).2) := by
  simp [findK, h, hq]

theorem findK_cons_imm (h : offset < c.length)
    (hq : oracle (c.set offset k) = true) (hm : offset % blocksize = 0) :
    findK oracle blocksize offset c (k :: ks) =
      (ScanOut.found k, [c.set offset k]) := by
  simp [findK, h, hq, hm]

theorem offset_sub_one_lt (h : offset < c.length)
    (hm : ¬ offset % blocksize = 0) :
    offset - 1 < (c.set offset k).length := by
  rw [List.length_set]
  have : offset ≠ 0 := by
    intro h0; rw [h0] at hm; exact hm (Nat.zero_mod _)
  omega

theorem findK_cons_flip_yes (h : offset < c.length)
    (hq : oracle (c.set offset k) = true) (hm : ¬ offset % blocksize = 0)
    (h2 : oracle ((c.set offset k).set (offset - 1)
      (255 ^^^ nth (c.set offset k) (offset - 1))) = true) :
    findK oracle blocksize offset c (k :: ks) =
      (ScanOut.found k, [c.set offset k,
        (c.set offset k).set (offset - 1)
          (255 ^^^ nth (c.set offset k) (offset - 1))]) := by
  have hget := getElem?_eq_some_nth (offset_sub_one_lt (k := k) h hm)
  simp [findK, h, hq, hm, hget, h2]

theorem findK_cons_flip_no (h : offset < c.length)
    (hq : oracle (c.set offset k) = true) (hm : ¬ offset % blocksize = 0)
    (h2 : oracle ((c.set offset k).set (offset - 1)
      (255 ^^^ nth (c.set offset k) (offset - 1))) = false) :
    findK oracle blocksize offset c (k :: ks) =
      ((findK oracle blocksize offset c ks).1,
        c.set offset k :: (c.set offset k).set (offset - 1)
          (255 ^^^ nth (c.set offset k) (offset - 1)) ::
          (findK oracle blocksize offset c ks).2) := by
  have hget := getElem?_eq_some_nth (offset_sub_one_lt (k := k) h hm)
  simp [findK, h, hq, hm, hget, h2]

/-- The scan returns exactly the first candidate of the list that the
spec's confirmation rule accepts (given that `offset` is in bounds). -/
theorem findK_fst (h : offset < c.length) (ks : List Nat) :
    (findK oracle blocksize offset c ks).1 =
      (((ks.find? (confB oracle blocksize offset c)).map ScanOut.found).getD
        ScanOut.exhausted) := by
  induction ks with
  | nil => simp [findK_nil]
  | cons k ks ih =>
    cases hq : oracle (c.set offset k) with
    | false =>
      have hc : ¬ confB oracle blocksize offset c k = true := by
        simp [confB, hq]
      rw [List.find?_cons_of_neg _ hc, findK_cons_no h hq, ← ih]
    | true =>
      by_cases hm : offset % blocksize = 0
      · have hc : confB oracle blocksize offset c k = true := by
          simp [confB, hq, hm]
        rw [List.find?_cons_of_pos _ hc, findK_cons_imm h hq hm]
        simp
      · cases h2 : oracle ((c.set offset k).set (offset - 1)
            (255 ^^^ nth (c.set offset k) (offset - 1))) with
        | true =>
          have hc : confB oracle blocksize offset c k = true := by
            simp [confB, hq, hm, h2]
          rw [List.find?_cons_of_pos _ hc, findK_cons_flip_yes h hq hm h2]
          simp
        | false =>
          have hc : ¬ confB oracle blocksize offset c k = true := by
            simp [confB, hq, hm, h2]
          rw [List.find?_cons_of_neg _ hc, findK_cons_flip_no h hq hm h2,
            ← ih]

/-- `find?` on an integer range finds the least element satisfying the
predicate. -/
theorem find?_range'_some {p : Nat → Bool} :
    ∀ (n s k : Nat), ((List.range' s n).find? p = some k ↔
      (s ≤ k ∧ k < s + n ∧ p k = true ∧ ∀ j, s ≤ j → j < k → p j = false)) := by
  intro n
  induction n with
  | zero =>
    intro s k
    constructor
    · intro h; simp [List.range'] at h
    · rintro ⟨h1, h2, -⟩; omega
  | succ m ih =>
    intro s k
    rw [List.range'_succ]
    by_cases hp : p s = true
    · rw [List.find?_cons_of_pos _ hp]
      constructor
      · rintro ⟨rfl⟩
        exact ⟨Nat.le_refl s, by omega, hp, fun j h1 h2 => by omega⟩
      · rintro ⟨h1, h2, h3, h4⟩
        by_cases hk : k = s
        · rw [hk]
        · have hf : p s = false := h4 s (Nat.le_refl s) (by omega)
          rw [hp] at hf; cases hf
    · rw [List.find?_cons_of_neg _ hp, ih (s + 1) k]
      constructor
      · rintro ⟨h1, h2, h3, h4⟩
        refine ⟨by omega, by omega, h3, fun j hj1 hj2 => ?_⟩
        by_cases hjs : j = s
        · rw [hjs]; exact Bool.eq_false_iff.mpr hp
        · exact h4 j (by omega) hj2
      · rintro ⟨h1, h2, h3, h4⟩
        have hks : k ≠ s := by rintro rfl; exact hp h3
        exact ⟨by omega, by omega, h3, fun j hj1 hj2 => h4 j (by omega) hj2⟩

/-- The scan queries the oracle at most twice per candidate. -/
theorem findK_trace_le (oracle : Bytes → Bool) (blocksize offset : Nat)
    (c : Bytes) : ∀ ks, (findK oracle blocksize offset c ks).2.length ≤
      2 * ks.length := by
  intro ks
  induction ks with
  | nil => simp [findK_nil]
  | cons k ks ih =>
    by_cases h : offset < c.length
    · cases hq : oracle (c.set offset k) with
      | false =>
        rw [findK_cons_no h hq]
        simp only [List.length_cons]
        omega
      | true =>
        by_cases hm : offset % blocksize = 0
        · rw [findK_cons_imm h hq hm]
          simp only [List.length_cons, List.length_nil]
          omega
        · cases h2 : oracle ((c.set offset k).set (offset - 1)
              (255 ^^^ nth (c.set offset k) (offset - 1))) with
          | true =>
            rw [findK_cons_flip_yes h hq hm h2]
            simp only [List.length_cons, List.length_nil]
            omega
          | false =>
            rw [findK_cons_flip_no h hq hm h2]
            simp only [List.length_cons]
            omega
    · rw [findK_cons_oob h]
      simp only [List.length_nil]
      omega

/-- Sharper bound: one query per candidate plus one per candidate that
passes the initial oracle query. -/
theorem findK_trace_le_add (oracle : Bytes → Bool) (blocksize offset : Nat)
    (c : Bytes) : ∀ ks, (findK oracle blocksize offset c ks).2.length ≤
      ks.length +
        (ks.filter (fun k => oracle (c.set offset k))).length := by
  intro ks
  induction ks with
  | nil => simp [findK_nil]
  | cons k ks ih =>
    by_cases h : offset < c.length
    · cases hq : oracle (c.set offset k) with
      | false =>
        rw [findK_cons_no h hq]
        simp only [List.filter_cons, hq, if_false, List.length_cons,
          Bool.false_eq_true]
        omega
      | true =>
        by_cases hm : offset % blocksize = 0
        · rw [findK_cons_imm h hq hm]
          simp only [List.filter_cons, hq, if_true, List.length_cons,
            List.length_nil]
          omega
        · cases h2 : oracle ((c.set offset k).set (offset - 1)
              (255 ^^^ nth (c.set offset k) (offset - 1))) with
          | true =>
            rw [findK_cons_flip_yes h hq hm h2]
            simp only [List.filter_cons, hq, if_true, List.length_cons,
              List.length_nil]
            omega
          | false =>
            rw [findK_cons_flip_no h hq hm h2]
            simp only [List.filter_cons, hq, if_true, List.length_cons]
            omega
    · rw [findK_cons_oob h]
      simp only [List.length_nil]
      omega

end FindKLemmas

/-! ## The padding-fixing loop -/

section FixLoopLemmas

variable {offset i : Nat} {pt : Bytes}

theorem fixLoop_length : ∀ {js : List Nat} {c c2 : Bytes},
    fixLoop offset i pt js c = some c2 → c2.length = c.length := by
  intro js
  induction js with
  | nil =>
    intro c c2 h
    simp only [fixLoop, Option.some.injEq] at h
    rw [← h]
  | cons j js ih =>
    intro c c2 h
    cases hp : getElem? pt (j - 1) with
    | none => simp only [fixLoop, hp] at h; cases h
    | some pb =>
      cases hc : getElem? c (offset + j) with
      | none => simp only [fixLoop, hp, hc] at h; cases h
      | some cb =>
        simp only [fixLoop, hp, hc] at h
        rw [ih h, List.length_set]

theorem fixLoop_isSome :
    ∀ {js : List Nat} {c : Bytes},
    (∀ j ∈ js, j - 1 < pt.length ∧ offset + j < c.length) →
    ∃ c2, fixLoop offset i pt js c = some c2 := by
  intro js
  induction js with
  | nil => intro c _; exact ⟨c, rfl⟩
  | cons j js ih =>
    intro c hb
    obtain ⟨h1, h2⟩ := hb j (List.mem_cons_self j js)
    have hp := getElem?_eq_some_nth h1
    have hc := getElem?_eq_some_nth h2
    obtain ⟨c2, hrec⟩ := ih (c := c.set (offset + j)
        ((i % 256) ^^^ nth pt (j - 1) ^^^ nth c (offset + j)))
      (fun j2 hj2 => ⟨(hb j2 (List.mem_cons_of_mem j hj2)).1, by
        rw [List.length_set]; exact (hb j2 (List.mem_cons_of_mem j hj2)).2⟩)
    exact ⟨c2, by simp only [fixLoop, hp, hc]; exact hrec⟩

theorem fixLoop_untouched : ∀ {js : List Nat} {c c2 : Bytes},
    fixLoop offset i pt js c = some c2 →
    ∀ a, (∀ j ∈ js, offset + j ≠ a) → getElem? c2 a = getElem? c a := by
  intro js
  induction js with
  | nil =>
    intro c c2 h a _
    simp only [fixLoop, Option.some.injEq] at h
    rw [← h]
  | cons j js ih =>
    intro c c2 h a ha
    cases hp : getElem? pt (j - 1) with
    | none => simp only [fixLoop, hp] at h; cases h
    | some pb =>
      cases hc : getElem? c (offset + j) with
      | none => simp only [fixLoop, hp, hc] at h; cases h
      | some cb =>
        simp only [fixLoop, hp, hc] at h
        rw [ih h a (fun j2 hj2 => ha j2 (List.mem_cons_of_mem j hj2)),
          List.getElem?_set_ne (ha j (List.mem_cons_self j js))]

theorem fixLoop_nth :
    ∀ (m : Nat) {s : Nat} {c c2 : Bytes},
    fixLoop offset i pt (List.range' s m) c = some c2 →
    ∀ j, s ≤ j → j < s + m →
      nth c2 (offset + j) =
        (i % 256) ^^^ nth pt (j - 1) ^^^ nth c (offset + j) := by
  intro m
  induction m with
  | zero => intro s c c2 _ j h1 h2; omega
  | succ m2 ih =>
    intro s c c2 h j h1 h2
    rw [List.range'_succ] at h
    cases hp : getElem? pt (s - 1) with
    | none => simp only [fixLoop, hp] at h; cases h
    | some pb =>
      cases hc : getElem? c (offset + s) with
      | none => simp only [fixLoop, hp, hc] at h; cases h
      | some cb =>
        simp only [fixLoop, hp, hc] at h
        have hblt : offset + s < c.length := by
          by_contra hb
          rw [List.getElem?_eq_none_iff.mpr (by omega)] at hc
          cases hc
        by_cases hj : j = s
        · subst hj
          have hun := fixLoop_untouched h (offset + j) (fun j2 hj2 => by
            have := List.mem_range'_1.mp hj2
            omega)
          have : getElem? c2 (offset + j) = some ((i % 256) ^^^ pb ^^^ cb) := by
            rw [hun, List.getElem?_set_self hblt]
          rw [nth, this, Option.getD_some, nth, hp, Option.getD_some, nth, hc,
            Option.getD_some]
        · have := ih h j (by omega) (by omega)
          rw [this, nth_set_ne _ _ (by omega : offset + s ≠ offset + j)]

end FixLoopLemmas

/-! ## The per-block and per-ciphertext loops -/

section SolveLemmas

variable {oracle : Bytes → Bool} {blocksize : Nat}

theorem solveBlock_cons_found {i : Nat} {rest : List Nat} {pt cw : Bytes}
    {offset initial k : Nat} {c1 : Bytes} {qs : List Bytes}
    (hsub : subChk cw.length (blocksize + i) = some offset)
    (hini : getElem? cw offset = some initial)
    (hfix : fixPadding offset i pt cw = some c1)
    (hfind : findK oracle blocksize offset c1 (List.range 256) =
      (ScanOut.found k, qs)) :
    solveBlock oracle blocksize (i :: rest) pt cw =
      ((solveBlock oracle blocksize rest
          ((initial ^^^ k ^^^ (i % 256)) :: pt) cw).1,
        qs ++ (solveBlock oracle blocksize rest
          ((initial ^^^ k ^^^ (i % 256)) :: pt) cw).2) := by
  simp only [solveBlock, hsub, hini, hfix, hfind]

theorem solveBlock_cons_exhausted {i : Nat} {rest : List Nat} {pt cw : Bytes}
    {offset initial : Nat} {c1 : Bytes} {qs : List Bytes}
    (hsub : subChk cw.length (blocksize + i) = some offset)
    (hini : getElem? cw offset = some initial)
    (hfix : fixPadding offset i pt cw = some c1)
    (hfind : findK oracle blocksize offset c1 (List.range 256) =
      (ScanOut.exhausted, qs)) :
    solveBlock oracle blocksize (i :: rest) pt cw =
      (DResult.err Error.InvalidPadding, qs) := by
  simp only [solveBlock, hsub, hini, hfix, hfind]

theorem solveBlock_ok_length :
    ∀ {rest : List Nat} {pt cw pt2 : Bytes} {qs : List Bytes},
    solveBlock oracle blocksize rest pt cw = (DResult.ok pt2, qs) →
    pt2.length = pt.length + rest.length := by
  intro rest
  induction rest with
  | nil =>
    intro pt cw pt2 qs h
    simp only [solveBlock, Prod.mk.injEq, DResult.ok.injEq] at h
    rw [← h.1]
    simp
  | cons i rest ih =>
    intro pt cw pt2 qs h
    cases hsub : subChk cw.length (blocksize + i) with
    | none => simp only [solveBlock, hsub, Prod.mk.injEq] at h; cases h.1
    | some offset =>
      cases hini : getElem? cw offset with
      | none => simp only [solveBlock, hsub, hini, Prod.mk.injEq] at h; cases h.1
      | some initial =>
        cases hfix : fixPadding offset i pt cw with
        | none => simp only [solveBlock, hsub, hini, hfix, Prod.mk.injEq] at h; cases h.1
        | some c1 =>
          cases hfind : findK oracle blocksize offset c1 (List.range 256) with
          | mk out qs2 =>
            cases out with
            | found k =>
              rw [solveBlock_cons_found hsub hini hfix hfind] at h
              have h2 : solveBlock oracle blocksize rest
                  ((initial ^^^ k ^^^ (i % 256)) :: pt) cw =
                  ((solveBlock oracle blocksize rest
                    ((initial ^^^ k ^^^ (i % 256)) :: pt) cw).1,
                  (solveBlock oracle blocksize rest
                    ((initial ^^^ k ^^^ (i % 256)) :: pt) cw).2) := rfl
              simp only [Prod.mk.injEq] at h
              have this :=
                @ih ((initial ^^^ k ^^^ (i % 256)) :: pt) cw pt2
                  (solveBlock oracle blocksize rest
                    ((initial ^^^ k ^^^ (i % 256)) :: pt) cw).2
                  (by rw [h2, h.1])
              simp only [List.length_cons] at this
              rw [this]
              simp only [List.length_cons]
              omega
            | exhausted =>
              rw [solveBlock_cons_exhausted hsub hini hfix hfind] at h
              simp only [Prod.mk.injEq] at h
              cases h.1
            | panic =>
              simp only [solveBlock, hsub, hini, hfix, hfind,
                Prod.mk.injEq] at h
              cases h.1

theorem solveBlock_err_eq :
    ∀ {rest : List Nat} {pt cw : Bytes} {e : Error} {qs : List Bytes},
    solveBlock oracle blocksize rest pt cw = (DResult.err e, qs) →
    e = Error.InvalidPadding := by
  intro rest
  induction rest with
  | nil =>
    intro pt cw e qs h
    simp only [solveBlock, Prod.mk.injEq] at h
    cases h.1
  | cons i rest ih =>
    intro pt cw e qs h
    cases hsub : subChk cw.length (blocksize + i) with
    | none => simp only [solveBlock, hsub, Prod.mk.injEq] at h; cases h.1
    | some offset =>
      cases hini : getElem? cw offset with
      | none => simp only [solveBlock, hsub, hini, Prod.mk.injEq] at h; cases h.1
      | some initial =>
        cases hfix : fixPadding offset i pt cw with
        | none => simp only [solveBlock, hsub, hini, hfix, Prod.mk.injEq] at h; cases h.1
        | some c1 =>
          cases hfind : findK oracle blocksize offset c1 (List.range 256) with
          | mk out qs2 =>
            cases out with
            | found k =>
              rw [solveBlock_cons_found hsub hini hfix hfind] at h
              simp only [Prod.mk.injEq] at h
              exact ih (Prod.ext h.1 rfl)
            | exhausted =>
              rw [solveBlock_cons_exhausted hsub hini hfix hfind] at h
              simp only [Prod.mk.injEq, DResult.err.injEq] at h
              exact h.1.symm
            | panic =>
              simp only [solveBlock, hsub, hini, hfix, hfind,
                Prod.mk.injEq] at h
              cases h.1

theorem solveBlock_trace_le :
    ∀ {rest : List Nat} {pt cw : Bytes},
    (solveBlock oracle blocksize rest pt cw).2.length ≤
      rest.length * (2 * 256) := by
  intro rest
  induction rest with
  | nil => simp [solveBlock]
  | cons i rest ih =>
    intro pt cw
    cases hsub : subChk cw.length (blocksize + i) with
    | none => simp [solveBlock, hsub]
    | some offset =>
      cases hini : getElem? cw offset with
      | none => simp [solveBlock, hsub, hini]
      | some initial =>
        cases hfix : fixPadding offset i pt cw with
        | none => simp [solveBlock, hsub, hini, hfix]
        | some c1 =>
          have htr := findK_trace_le oracle blocksize offset c1 (List.range 256)
          rw [List.length_range] at htr
          cases hfind : findK oracle blocksize offset c1 (List.range 256) with
          | mk out qs2 =>
            rw [hfind] at htr
            cases out with
            | found k =>
              rw [solveBlock_cons_found hsub hini hfix hfind]
              have h2 := @ih ((initial ^^^ k ^^^ (i % 256)) :: pt) cw
              simp only [List.length_append, List.length_cons]
              simp only at htr
              omega
            | exhausted =>
              rw [solveBlock_cons_exhausted hsub hini hfix hfind]
              simp only at htr
              simp only [List.length_cons]
              omega
            | panic =>
              simp only [solveBlock, hsub, hini, hfix, hfind,
                List.length_cons]
              simp only at htr
              omega

theorem solveBlocks_err_prop {n : Nat} {pt cw : Bytes} {e : Error}
    {qs : List Bytes}
    (h : solveBlock oracle blocksize (List.range' 1 blocksize) pt cw =
      (DResult.err e, qs)) :
    solveBlocks oracle blocksize (n + 1) pt cw = (DResult.err e, qs) := by
  simp only [solveBlocks, h]

theorem solveBlocks_ok_length :
    ∀ {n : Nat} {pt cw pt2 : Bytes} {qs : List Bytes},
    solveBlocks oracle blocksize n pt cw = (DResult.ok pt2, qs) →
    pt2.length = pt.length + n * blocksize := by
  intro n
  induction n with
  | zero =>
    intro pt cw pt2 qs h
    simp only [solveBlocks, Prod.mk.injEq, DResult.ok.injEq] at h
    rw [← h.1]
    simp
  | succ m ih =>
    intro pt cw pt2 qs h
    cases hblk : solveBlock oracle blocksize (List.range' 1 blocksize) pt cw
      with
    | mk out qs2 =>
      cases out with
      | ok pt3 =>
        cases hsub : subChk cw.length blocksize with
        | none =>
          simp only [solveBlocks, hblk, hsub, Prod.mk.injEq] at h
          cases h.1
        | some newlen =>
          simp only [solveBlocks, hblk, hsub, Prod.mk.injEq] at h
          have hlen := solveBlock_ok_length hblk
          rw [List.length_range'] at hlen
          have h2 := @ih pt3 (cw.take newlen) pt2
            (solveBlocks oracle blocksize m pt3 (cw.take newlen)).2
            (by rw [← h.1])
          rw [h2, hlen]
          ring
      | err e =>
        simp only [solveBlocks, hblk, Prod.mk.injEq] at h
        cases h.1
      | panic =>
        simp only [solveBlocks, hblk, Prod.mk.injEq] at h
        cases h.1

theorem solveBlocks_err_eq :
    ∀ {n : Nat} {pt cw : Bytes} {e : Error} {qs : List Bytes},
    solveBlocks oracle blocksize n pt cw = (DResult.err e, qs) →
    e = Error.InvalidPadding := by
  intro n
  induction n with
  | zero =>
    intro pt cw e qs h
    simp only [solveBlocks, Prod.mk.injEq] at h
    cases h.1
  | succ m ih =>
    intro pt cw e qs h
    cases hblk : solveBlock oracle blocksize (List.range' 1 blocksize) pt cw
      with
    | mk out qs2 =>
      cases out with
      | ok pt3 =>
        cases hsub : subChk cw.length blocksize with
        | none =>
          simp only [solveBlocks, hblk, hsub, Prod.mk.injEq] at h
          cases h.1
        | some newlen =>
          simp only [solveBlocks, hblk, hsub, Prod.mk.injEq] at h
          exact ih (Prod.ext h.1 rfl)
      | err e2 =>
        simp only [solveBlocks, hblk, Prod.mk.injEq, DResult.err.injEq] at h
        rw [← h.1]
        exact solveBlock_err_eq hblk
      | panic =>
        simp only [solveBlocks, hblk, Prod.mk.injEq] at h
        cases h.1

theorem solveBlocks_trace_le :
    ∀ {n : Nat} {pt cw : Bytes},
    (solveBlocks oracle blocksize n pt cw).2.length ≤
      n * (blocksize * (2 * 256)) := by
  intro n
  induction n with
  | zero => simp [solveBlocks]
  | succ m ih =>
    intro pt cw
    have hb := @solveBlock_trace_le oracle blocksize
      (List.range' 1 blocksize) pt cw
    rw [List.length_range'] at hb
    cases hblk : solveBlock oracle blocksize (List.range' 1 blocksize) pt cw
      with
    | mk out qs2 =>
      rw [hblk] at hb
      cases out with
      | ok pt3 =>
        cases hsub : subChk cw.length blocksize with
        | none =>
          simp only [solveBlocks, hblk, hsub]
          simp only at hb
          rw [Nat.succ_mul]
          omega
        | some newlen =>
          simp only [solveBlocks, hblk, hsub, List.length_append]
          have h2 := @ih pt3 (cw.take newlen)
          simp only at hb
          rw [Nat.succ_mul]
          omega
      | err e =>
        simp only [solveBlocks, hblk]
        simp only at hb
        rw [Nat.succ_mul]
        omega
      | panic =>
        simp only [solveBlocks, hblk]
        simp only at hb
        rw [Nat.succ_mul]
        omega

end SolveLemmas

/-! ## Top-level unfolding -/

theorem decryptT_aligned {c : Bytes} {b : Nat} {oracle : Bytes → Bool}
    (hb : b ≠ 0) (ha : c.length % b = 0) (hn : 1 ≤ c.length / b) :
    decryptT c b oracle = solveBlocks oracle b (c.length / b - 1) [] c := by
  simp [decryptT, hb, ha, subChk, hn]

/-! ## Claims -/

/-- C2: for every ciphertext and (positive) block size such that the length
is not a multiple of the block size, `decrypt` returns the size-mismatch
error carrying the expected block size and the actual length, and performs
zero oracle calls. -/
theorem claim_C2 (c : Bytes) (b : Nat) (oracle : Bytes → Bool) (hb : 0 < b)
    (hml : c.length % b ≠ 0) :
    decryptT c b oracle = (DResult.err (Error.WrongSize b c.length), []) := by
  have h0 : ¬ (b = 0) := by omega
  simp [decryptT, h0, hml]

theorem claim_C2_witness :
    decryptT [0, 0, 0] 2 (fun _ => true) =
      (DResult.err (Error.WrongSize 2 3), []) :=
  claim_C2 [0, 0, 0] 2 (fun _ => true) (by decide) (by decide)

/-- C10: when the ciphertext is exactly one block long (the IV alone),
`decrypt` returns `Ok` of the empty byte string and never calls the
oracle. -/
theorem claim_C10 (c : Bytes) (b : Nat) (oracle : Bytes → Bool) (hb : 0 < b)
    (hlen : c.length = b) :
    decryptT c b oracle = (DResult.ok [], []) := by
  have h0 : ¬ (b = 0) := by omega
  have ha : c.length % b = 0 := by rw [hlen]; exact Nat.mod_self b
  have hd : c.length / b = 1 := by rw [hlen]; exact Nat.div_self hb
  rw [decryptT_aligned h0 ha (by omega), hd]
  simp [solveBlocks]

theorem claim_C10_witness :
    decryptT [5] 1 (fun _ => true) = (DResult.ok [], []) :=
  claim_C10 [5] 1 (fun _ => true) (by decide) (by decide)

/-- C6: whenever `decrypt` returns `Ok`, the result's length is exactly
`(N - 1) * blocksize = len(ciphertext) - blocksize`, where `N` is the
number of blocks. -/
theorem claim_C6 (c : Bytes) (b : Nat) (oracle : Bytes → Bool) (pt2 : Bytes)
    (h : decrypt c b oracle = DResult.ok pt2) :
    pt2.length = (c.length / b - 1) * b ∧ pt2.length = c.length - b := by
  rw [decrypt] at h
  by_cases h0 : b = 0
  · rw [decryptT] at h
    simp [h0] at h
  by_cases ha : c.length % b = 0
  · by_cases hn : 1 ≤ c.length / b
    · rw [decryptT_aligned h0 ha hn] at h
      have hpair : solveBlocks oracle b (c.length / b - 1) [] c =
          (DResult.ok pt2,
            (solveBlocks oracle b (c.length / b - 1) [] c).2) :=
        Prod.ext h rfl
      have hlen := solveBlocks_ok_length hpair
      simp only [List.length_nil, Nat.zero_add] at hlen
      refine ⟨hlen, ?_⟩
      rw [hlen]
      have hdvd : b ∣ c.length := Nat.dvd_of_mod_eq_zero ha
      have hmul : c.length / b * b = c.length := Nat.div_mul_cancel hdvd
      have hble : b ≤ c.length := by
        calc b = 1 * b := by omega
        _ ≤ c.length / b * b := by
            exact Nat.mul_le_mul_right b hn
        _ = c.length := hmul
      rw [Nat.sub_one_mul, hmul]
    · rw [decryptT] at h
      simp only [if_neg h0, ha, if_neg, ite_not] at h
      have hz : c.length / b = 0 := Nat.lt_one_iff.mp (not_le.mp hn)
      simp [subChk, hz, ha, h0] at h
  · rw [decryptT] at h
    simp [h0, ha] at h

theorem claim_C6_witness :
    List.length ([] : Bytes) = (List.length [5] / 1 - 1) * 1 ∧
      List.length ([] : Bytes) = List.length [5] - 1 :=
  claim_C6 [5] 1 (fun _ => true) [] (by decide)

/-- C7: the scan for a single byte position performs at most `2 * 256`
oracle calls, and a whole call to `decrypt` on an `N`-block ciphertext
performs at most `(N - 1) * blocksize * 2 * 256` oracle calls. -/
theorem claim_C7 :
    (∀ (oracle : Bytes → Bool) (b offset : Nat) (c1 : Bytes),
      (findK oracle b offset c1 (List.range 256)).2.length ≤ 2 * 256) ∧
    (∀ (c : Bytes) (b : Nat) (oracle : Bytes → Bool),
      oracleCalls c b oracle ≤ (c.length / b - 1) * (b * (2 * 256))) := by
  constructor
  · intro oracle b offset c1
    have h := findK_trace_le oracle b offset c1 (List.range 256)
    rw [List.length_range] at h
    exact h
  · intro c b oracle
    rw [oracleCalls]
    by_cases h0 : b = 0
    · simp [decryptT, h0]
    by_cases ha : c.length % b = 0
    · by_cases hn : 1 ≤ c.length / b
      · rw [decryptT_aligned h0 ha hn]
        exact solveBlocks_trace_le
      · have hz : c.length / b = 0 := Nat.lt_one_iff.mp (not_le.mp hn)
        simp [decryptT, h0, ha, subChk, hz]
    · simp [decryptT, h0, ha]

/-- C3: whenever the candidate scan at a byte position confirms no
candidate (the scan is exhausted), the block loop aborts at once with the
invalid-padding error and the error propagates: the whole call returns
`Err(InvalidPadding)` and no partial plaintext; moreover any error a
well-aligned call returns is `InvalidPadding` (a misaligned one returns
the size-mismatch error). -/
theorem claim_C3 :
    (∀ (oracle : Bytes → Bool) (b i : Nat) (rest : List Nat) (pt cw : Bytes)
      (offset initial : Nat) (c1 : Bytes) (qs : List Bytes),
      subChk cw.length (b + i) = some offset →
      getElem? cw offset = some initial →
      fixPadding offset i pt cw = some c1 →
      findK oracle b offset c1 (List.range 256) = (ScanOut.exhausted, qs) →
      solveBlock oracle b (i :: rest) pt cw =
        (DResult.err Error.InvalidPadding, qs)) ∧
    (∀ (oracle : Bytes → Bool) (b n : Nat) (pt cw : Bytes) (e : Error)
      (qs : List Bytes),
      solveBlock oracle b (List.range' 1 b) pt cw = (DResult.err e, qs) →
      solveBlocks oracle b (n + 1) pt cw = (DResult.err e, qs)) ∧
    (∀ (c : Bytes) (b : Nat) (oracle : Bytes → Bool) (e : Error),
      decrypt c b oracle = DResult.err e →
      e = Error.InvalidPadding ∨
        (e = Error.WrongSize b c.length ∧ c.length % b ≠ 0)) := by
  refine ⟨?_, ?_, ?_⟩
  · intro oracle b i rest pt cw offset initial c1 qs hsub hini hfix hfind
    exact solveBlock_cons_exhausted hsub hini hfix hfind
  · intro oracle b n pt cw e qs h
    exact solveBlocks_err_prop h
  · intro c b oracle e h
    rw [decrypt] at h
    by_cases h0 : b = 0
    · rw [decryptT] at h
      simp [h0] at h
    by_cases ha : c.length % b = 0
    · by_cases hn : 1 ≤ c.length / b
      · rw [decryptT_aligned h0 ha hn] at h
        exact Or.inl (solveBlocks_err_eq (Prod.ext h rfl))
      · have hz : c.length / b = 0 := Nat.lt_one_iff.mp (not_le.mp hn)
        simp [decryptT, h0, ha, subChk, hz] at h
    · rw [decryptT, if_neg h0, if_pos ha] at h
      have h2 : DResult.err (Error.WrongSize b c.length) = DResult.err e := h
      cases h2
      exact Or.inr ⟨rfl, ha⟩

theorem claim_C3_witness :
    solveBlock (fun _ => false) 2 [1] [] [0, 0, 0, 0] =
      (DResult.err Error.InvalidPadding,
        (findK (fun _ => false) 2 1 [0, 0, 0, 0] (List.range 256)).2) ∧
    solveBlocks (fun _ => false) 2 1 [] [0, 0, 0, 0] =
      (DResult.err Error.InvalidPadding,
        (solveBlock (fun _ => false) 2 (List.range' 1 2) [] [0, 0, 0, 0]).2) ∧
    (Error.WrongSize 2 1 = Error.InvalidPadding ∨
      (Error.WrongSize 2 1 = Error.WrongSize 2 (List.length [9]) ∧
        List.length [9] % 2 ≠ 0)) := by
  refine ⟨?_, ?_, ?_⟩
  · exact claim_C3.1 (fun _ => false) 2 1 [] [] [0, 0, 0, 0] 1 0 [0, 0, 0, 0]
      (findK (fun _ => false) 2 1 [0, 0, 0, 0] (List.range 256)).2
      (by decide) (by decide) (by decide)
      (Prod.ext (by decide) rfl)
  · exact claim_C3.2.1 (fun _ => false) 2 0 [] [0, 0, 0, 0]
      Error.InvalidPadding
      (solveBlock (fun _ => false) 2 (List.range' 1 2) [] [0, 0, 0, 0]).2
      (Prod.ext (by decide) rfl)
  · exact claim_C3.2.2 [9] 2 (fun _ => false) (Error.WrongSize 2 1)
      (by decide)

/-- C4: the candidate scan tries `k = 0, ..., 255` in ascending order and
returns the first confirmed candidate, where a candidate is confirmed
exactly when the oracle accepts the working copy with `k` at `offset` and,
unless `offset % blocksize = 0` (in which case it is accepted
immediately), the oracle also accepts the copy whose byte at `offset - 1`
is replaced by its bitwise complement. -/
theorem claim_C4 (oracle : Bytes → Bool) (b offset : Nat) (c1 : Bytes)
    (h : offset < c1.length) (k : Nat) :
    (findK oracle b offset c1 (List.range 256)).1 = ScanOut.found k ↔
      (k < 256 ∧ confB oracle b offset c1 k = true ∧
        ∀ j, j < k → confB oracle b offset c1 j = false) := by
  rw [findK_fst h, List.range_eq_range']
  constructor
  · intro hf
    cases hfind : (List.range' 0 256).find? (confB oracle b offset c1) with
    | none =>
      rw [hfind] at hf
      exact ScanOut.noConfusion
        (show ScanOut.exhausted = ScanOut.found k from hf)
    | some k2 =>
      rw [hfind] at hf
      have hf2 : k2 = k := by
        have h3 : ScanOut.found k2 = ScanOut.found k := hf
        cases h3
        rfl
      subst hf2
      have hc := (find?_range'_some 256 0 k2).mp hfind
      exact ⟨by omega, hc.2.2.1, fun j hj => hc.2.2.2 j (by omega) hj⟩
  · rintro ⟨hk, hc, hmin⟩
    rw [(find?_range'_some 256 0 k).mpr
      ⟨by omega, by omega, hc, fun j h1 h2 => hmin j h2⟩]
    simp

theorem claim_C4_witness :
    (findK (fun _ => true) 2 1 [7, 5] (List.range 256)).1 =
      ScanOut.found 0 :=
  (claim_C4 (fun _ => true) 2 1 [7, 5] (by decide) 0).mpr
    ⟨by decide, by decide, fun j hj => absurd hj (by omega)⟩

/-- C5: the per-byte algebra: (1) fixing the already-solved positions
rewrites the byte at `offset + j` (for `1 ≤ j < i`) to
`i XOR plaintext[j-1] XOR ciphertext[offset+j]` (as u8, `i` is `i % 256`),
and (2) on a confirmed candidate `k` the byte
`initial XOR k XOR i` is prepended to the plaintext accumulator and the
loop continues with the remaining positions. -/
theorem claim_C5 :
    (∀ (offset i : Nat) (pt c c2 : Bytes),
      fixPadding offset i pt c = some c2 →
      ∀ j, 1 ≤ j → j < i →
        nth c2 (offset + j) =
          (i % 256) ^^^ nth pt (j - 1) ^^^ nth c (offset + j)) ∧
    (∀ (oracle : Bytes → Bool) (b i : Nat) (rest : List Nat) (pt cw : Bytes)
      (offset initial k : Nat) (c1 : Bytes) (qs : List Bytes),
      subChk cw.length (b + i) = some offset →
      getElem? cw offset = some initial →
      fixPadding offset i pt cw = some c1 →
      findK oracle b offset c1 (List.range 256) = (ScanOut.found k, qs) →
      solveBlock oracle b (i :: rest) pt cw =
        ((solveBlock oracle b rest
            ((initial ^^^ k ^^^ (i % 256)) :: pt) cw).1,
          qs ++ (solveBlock oracle b rest
            ((initial ^^^ k ^^^ (i % 256)) :: pt) cw).2)) := by
  constructor
  · intro offset i pt c c2 hfix j h1 h2
    exact fixLoop_nth (i - 1) hfix j h1 (by omega)
  · intro oracle b i rest pt cw offset initial k c1 qs hsub hini hfix hfind
    exact solveBlock_cons_found hsub hini hfix hfind

theorem claim_C5_witness :
    nth [1, 9, 3] (0 + 1) = (2 % 256) ^^^ nth [9] (1 - 1) ^^^
      nth [1, 2, 3] (0 + 1) ∧
    solveBlock (fun _ => true) 2 [1] [] [0, 0, 0, 0] =
      ((solveBlock (fun _ => true) 2 []
          ((0 ^^^ 0 ^^^ (1 % 256)) :: []) [0, 0, 0, 0]).1,
        (findK (fun _ => true) 2 1 [0, 0, 0, 0] (List.range 256)).2 ++
          (solveBlock (fun _ => true) 2 []
            ((0 ^^^ 0 ^^^ (1 % 256)) :: []) [0, 0, 0, 0]).2) := by
  constructor
  · exact claim_C5.1 0 2 [9] [1, 2, 3] [1, 9, 3] (by decide) 1 (by decide)
      (by decide)
  · exact claim_C5.2 (fun _ => true) 2 1 [] [] [0, 0, 0, 0] 1 0 0
      [0, 0, 0, 0]
      (findK (fun _ => true) 2 1 [0, 0, 0, 0] (List.range 256)).2
      (by decide) (by decide) (by decide) (Prod.ext (by decide) rfl)

set_option maxRecDepth 4000 in
/-- C8 (counterexample): against an adversarial oracle that accepts every
initial query and rejects every confirmation re-query, the scan for one
byte position performs `2 * 256 = 512 > 257` oracle calls. -/
theorem claim_C8_cex :
    ¬ ((findK stubbornOracle 2 1 [7, 5] (List.range 256)).2.length ≤
      256 + 1) := by decide

/-- C8 (amended): the scan for a single byte position performs at most two
oracle calls per candidate, hence at most `2 * 256` in total; the
`256 + 1` bound holds under the additional assumption that at most one
candidate passes the initial oracle query. -/
theorem claim_C8_amended (oracle : Bytes → Bool) (b offset : Nat)
    (c1 : Bytes) :
    ((findK oracle b offset c1 (List.range 256)).2.length ≤ 2 * 256) ∧
    (((List.range 256).filter (fun k => oracle (c1.set offset k))).length ≤ 1 →
      (findK oracle b offset c1 (List.range 256)).2.length ≤ 256 + 1) := by
  constructor
  · have h := findK_trace_le oracle b offset c1 (List.range 256)
    rw [List.length_range] at h
    exact h
  · intro hf
    have h := findK_trace_le_add oracle b offset c1 (List.range 256)
    rw [List.length_range] at h
    omega

theorem claim_C8_amended_witness :
    (findK (fun _ => false) 2 1 [7, 5] (List.range 256)).2.length ≤
      256 + 1 :=
  (claim_C8_amended (fun _ => false) 2 1 [7, 5]).2 (by decide)

/-! ## Absence of panics on well-formed input -/

theorem findK_fst_ne_panic {oracle : Bytes → Bool} {b offset : Nat}
    {c : Bytes} (h : offset < c.length) (ks : List Nat) :
    (findK oracle b offset c ks).1 ≠ ScanOut.panic := by
  rw [findK_fst h]
  cases ks.find? (confB oracle b offset c) <;> simp

theorem solveBlock_ne_panic {oracle : Bytes → Bool} {blocksize : Nat}
    (hb : 0 < blocksize) :
    ∀ (m : Nat) {s : Nat} {pt cw : Bytes},
    1 ≤ s →
    blocksize + s + m ≤ cw.length + 1 →
    s ≤ pt.length + 1 →
    (solveBlock oracle blocksize (List.range' s m) pt cw).1 ≠
      DResult.panic := by
  intro m
  induction m with
  | zero =>
    intro s pt cw _ _ _
    simp [List.range', solveBlock]
  | succ m2 ih =>
    intro s pt cw hs hlen hpt
    rw [List.range'_succ]
    have hsub : subChk cw.length (blocksize + s) =
        some (cw.length - (blocksize + s)) := by
      simp only [subChk, if_pos (by omega : blocksize + s ≤ cw.length)]
    have hoff : cw.length - (blocksize + s) < cw.length := by omega
    have hini := getElem?_eq_some_nth hoff
    obtain ⟨c1, hfix⟩ := @fixLoop_isSome
      (cw.length - (blocksize + s)) s pt
      (List.range' 1 (s - 1)) cw (fun j hj => by
        have hjm := List.mem_range'_1.mp hj
        exact ⟨by omega, by omega⟩)
    have hc1len : c1.length = cw.length := fixLoop_length hfix
    have hoff1 : cw.length - (blocksize + s) < c1.length := by
      rw [hc1len]; exact hoff
    cases hfind : findK oracle blocksize (cw.length - (blocksize + s)) c1
        (List.range 256) with
    | mk out qs =>
      cases out with
      | found k =>
        rw [solveBlock_cons_found hsub hini hfix hfind]
        exact ih (by omega) (by omega) (by simp; omega)
      | exhausted =>
        rw [solveBlock_cons_exhausted hsub hini hfix hfind]
        simp
      | panic =>
        have hne := @findK_fst_ne_panic oracle blocksize
          (cw.length - (blocksize + s)) c1 hoff1 (List.range 256)
        rw [hfind] at hne
        exact absurd rfl hne

theorem solveBlocks_ne_panic {oracle : Bytes → Bool} {blocksize : Nat}
    (hb : 0 < blocksize) :
    ∀ (n : Nat) {pt cw : Bytes}, cw.length = (n + 1) * blocksize →
    (solveBlocks oracle blocksize n pt cw).1 ≠ DResult.panic := by
  intro n
  induction n with
  | zero =>
    intro pt cw _
    simp [solveBlocks]
  | succ m ih =>
    intro pt cw hlen
    have hexp : (m + 1 + 1) * blocksize =
        m * blocksize + 2 * blocksize := by ring
    have hblk := @solveBlock_ne_panic oracle blocksize hb blocksize
      1 pt cw (by omega) (by omega) (by omega)
    cases hres : solveBlock oracle blocksize (List.range' 1 blocksize) pt cw
      with
    | mk out qs =>
      cases out with
      | ok pt3 =>
        have hsub : subChk cw.length blocksize =
            some (cw.length - blocksize) := by
          simp only [subChk, if_pos (by omega : blocksize ≤ cw.length)]
        simp only [solveBlocks, hres, hsub]
        apply ih
        rw [List.length_take]
        have h1 : (m + 1) * blocksize = (m + 1 + 1) * blocksize -
            blocksize := by ring_nf; omega
        omega
      | err e => simp [solveBlocks, hres]
      | panic =>
        have h1 : (solveBlock oracle blocksize (List.range' 1 blocksize) pt
            cw).1 = DResult.panic := by rw [hres]
        exact absurd h1 hblk

/-- C9: on a positive block size and a non-empty aligned ciphertext the
call never panics (every index `decrypt` uses is in bounds and no `usize`
subtraction underflows); on the empty ciphertext the expression
`ciphertext.len() / blocksize - 1` underflows, so the call panics; and
with `blocksize = 0` the alignment check `len % 0` itself panics. -/
theorem claim_C9 :
    (∀ (c : Bytes) (b : Nat) (oracle : Bytes → Bool),
      0 < b → c.length % b = 0 → c ≠ [] →
      decrypt c b oracle ≠ DResult.panic) ∧
    (∀ (b : Nat) (oracle : Bytes → Bool), 0 < b →
      decrypt [] b oracle = DResult.panic) ∧
    (∀ (c : Bytes) (oracle : Bytes → Bool),
      decrypt c 0 oracle = DResult.panic) := by
  refine ⟨?_, ?_, ?_⟩
  · intro c b oracle hb ha hne
    have h0 : ¬ b = 0 := by omega
    have hlen : 0 < c.length := by
      cases c with
      | nil => exact absurd rfl hne
      | cons a t => simp
    have hdvd : b ∣ c.length := Nat.dvd_of_mod_eq_zero ha
    have hble : b ≤ c.length := Nat.le_of_dvd hlen hdvd
    have hn : 1 ≤ c.length / b := (Nat.one_le_div_iff hb).mpr hble
    rw [decrypt, decryptT_aligned h0 ha hn]
    apply solveBlocks_ne_panic hb
    rw [Nat.sub_add_cancel hn]
    exact (Nat.div_mul_cancel hdvd).symm
  · intro b oracle hb
    have h0 : ¬ b = 0 := by omega
    simp [decrypt, decryptT, h0, subChk, Nat.zero_div]
  · intro c oracle
    simp [decrypt, decryptT]

theorem claim_C9_witness :
    decrypt [5] 1 (fun _ => true) ≠ DResult.panic ∧
    decrypt [] 1 (fun _ => true) = DResult.panic ∧
    decrypt [7] 0 (fun _ => true) = DResult.panic :=
  ⟨claim_C9.1 [5] 1 (fun _ => true) (by decide) (by decide) (by decide),
   claim_C9.2.1 1 (fun _ => true) (by decide),
   claim_C9.2.2 [7] (fun _ => true)⟩

/-! ## Round-trip preliminaries: byte validity and index tools -/

theorem xor_lt_256 {x y : Nat} (hx : x < 256) (hy : y < 256) :
    x ^^^ y < 256 := by
  have h256 : (256 : Nat) = 2 ^ 8 := by norm_num
  rw [h256] at hx hy ⊢
  exact Nat.xor_lt_two_pow hx hy

theorem nth_lt_of_valid {l : Bytes} {n : Nat} (hv : validBytes l)
    (h : n < l.length) : nth l n < 256 := by
  have : nth l n ∈ l := by
    rw [nth, List.getElem?_eq_getElem h, Option.getD_some]
    exact List.getElem_mem h
  exact hv _ this

theorem nth_eq_getElem {l : Bytes} {n : Nat} (h : n < l.length) :
    nth l n = l[n] := by
  rw [nth, List.getElem?_eq_getElem h, Option.getD_some]

theorem validBytes_xorBytes {x y : Bytes} (hx : validBytes x)
    (hy : validBytes y) : validBytes (xorBytes x y) := by
  induction x generalizing y with
  | nil => intro z hz; simp [xorBytes] at hz
  | cons a t ih =>
    cases y with
    | nil => intro z hz; simp [xorBytes] at hz
    | cons u w =>
      intro z hz
      simp only [xorBytes, List.zipWith_cons_cons, List.mem_cons] at hz
      cases hz with
      | inl h =>
        rw [h]
        exact xor_lt_256 (hx a (List.mem_cons_self a t))
          (hy u (List.mem_cons_self u w))
      | inr h =>
        exact ih (fun v hv => hx v (List.mem_cons_of_mem a hv))
          (fun v hv => hy v (List.mem_cons_of_mem u hv)) z h

theorem validBytes_take {l : Bytes} (hv : validBytes l) (n : Nat) :
    validBytes (l.take n) :=
  fun y hy => hv y (List.mem_of_mem_take hy)

theorem validBytes_drop {l : Bytes} (hv : validBytes l) (n : Nat) :
    validBytes (l.drop n) :=
  fun y hy => hv y (List.mem_of_mem_drop hy)

theorem validBytes_append {x y : Bytes} (hx : validBytes x)
    (hy : validBytes y) : validBytes (x ++ y) := by
  intro z hz
  rcases List.mem_append.mp hz with h | h
  · exact hx z h
  · exact hy z h

theorem getElem?_take_lt {l : Bytes} {m w : Nat} (h : m < w) :
    (l.take w)[m]? = l[m]? := by
  rw [List.getElem?_take, if_pos h]

/-- `List.all (· == v)` as a pointwise statement about `nth`. -/
theorem all_eq_nth_iff {l : Bytes} {v : Nat} :
    (l.all (fun y => y == v) = true) ↔ ∀ m, m < l.length → nth l m = v := by
  induction l with
  | nil => simp
  | cons a t ih =>
    simp only [List.all_cons, Bool.and_eq_true, beq_iff_eq, ih]
    constructor
    · rintro ⟨h1, h2⟩ m hm
      cases m with
      | zero => rw [nth_cons_zero]; exact h1
      | succ m2 => rw [nth_cons_succ]; exact h2 m2 (by simpa using hm)
    · intro h
      refine ⟨?_, fun m hm => ?_⟩
      · have h0 := h 0 (by simp)
        rwa [nth_cons_zero] at h0
      · have h1 := h (m + 1) (by simpa using hm)
        rwa [nth_cons_succ] at h1

theorem all_drop_nth_iff {d : Bytes} {w v : Nat} :
    ((d.drop w).all (fun y => y == v) = true) ↔
      ∀ m, w ≤ m → m < d.length → nth d m = v := by
  rw [all_eq_nth_iff]
  constructor
  · intro h m h1 h2
    have h3 := h (m - w) (by rw [List.length_drop]; omega)
    rw [nth_drop] at h3
    rwa [Nat.add_sub_cancel' h1] at h3
  · intro h m hm
    rw [List.length_drop] at hm
    rw [nth_drop]
    exact h (w + m) (by omega) (by omega)

/-- Pointwise characterization of PKCS#7 validity of a message. -/
theorem pkcs7valid_iff_gen {b : Nat} {msg : Bytes} :
    pkcs7valid b msg = true ↔
      (1 ≤ nth msg (msg.length - 1) ∧ nth msg (msg.length - 1) ≤ b ∧
        nth msg (msg.length - 1) ≤ msg.length ∧
        ∀ m, msg.length - nth msg (msg.length - 1) ≤ m → m < msg.length →
          nth msg m = nth msg (msg.length - 1)) := by
  rw [pkcs7valid]
  simp only [Bool.and_eq_true, decide_eq_true_iff, all_drop_nth_iff]
  tauto

/-- Pointwise characterization of PKCS#7 validity of one block. -/
theorem pkcs7valid_iff {b : Nat} {d : Bytes} (hb : 0 < b)
    (hd : d.length = b) :
    pkcs7valid b d = true ↔
      (1 ≤ nth d (b - 1) ∧ nth d (b - 1) ≤ b ∧
        ∀ m, b - nth d (b - 1) ≤ m → m < b → nth d m = nth d (b - 1)) := by
  rw [pkcs7valid_iff_gen, hd]
  constructor
  · rintro ⟨h1, h2, h3, h4⟩
    exact ⟨h1, h2, h4⟩
  · rintro ⟨h1, h2, h3⟩
    exact ⟨h1, h2, by omega, h3⟩

/-- The PKCS#7 check on a message ending in a full block only looks at
that block. -/
theorem pkcs7valid_append {b : Nat} (hb : 0 < b) {rest d : Bytes}
    (hd : d.length = b) : pkcs7valid b (rest ++ d) = pkcs7valid b d := by
  have hlen : (rest ++ d).length = rest.length + b := by
    rw [List.length_append, hd]
  have hv : nth (rest ++ d) ((rest ++ d).length - 1) = nth d (b - 1) := by
    rw [hlen]
    have h1 : rest.length + b - 1 = rest.length + (b - 1) := by omega
    rw [h1, nth_append_right]
  rw [Bool.eq_iff_iff, pkcs7valid_iff_gen, pkcs7valid_iff hb hd, hv, hlen]
  constructor
  · rintro ⟨h1, h2, h3, h4⟩
    refine ⟨h1, h2, fun m hm1 hm2 => ?_⟩
    have h5 := h4 (rest.length + m) (by omega) (by omega)
    rwa [nth_append_right] at h5
  · rintro ⟨h1, h2, h3⟩
    refine ⟨h1, h2, by omega, fun m hm1 hm2 => ?_⟩
    have hm3 : m = rest.length + (m - rest.length) := by omega
    rw [hm3, nth_append_right]
    exact h3 (m - rest.length) (by omega) (by omega)

/-! ## Evaluating the spec-modelled oracle -/

section OracleEval

variable {decB : Bytes → Bytes} {b : Nat}

theorem cbcDecAux_length
    (hdecLen : ∀ x : Bytes, x.length = b → (decB x).length = b) :
    ∀ (n : Nat) (prev s : Bytes), prev.length = b → s.length = n * b →
    (cbcDecAux decB b prev n s).length = n * b := by
  intro n
  induction n with
  | zero => intro prev s _ _; simp [cbcDecAux]
  | succ m ih =>
    intro prev s hprev hs
    have hmul : (m + 1) * b = m * b + b := by ring
    have hsb : b ≤ s.length := by omega
    have htake : (s.take b).length = b := by
      rw [List.length_take]; omega
    have hdec1 : (decB (s.take b)).length = b := hdecLen _ htake
    have hblock : (xorBytes (decB (s.take b)) prev).length = b := by
      rw [length_xorBytes, hdec1, hprev]; omega
    have hdrop : (s.drop b).length = m * b := by
      rw [List.length_drop]; omega
    simp only [cbcDecAux]
    rw [List.length_append, hblock, ih (s.take b) (s.drop b) htake hdrop]
    omega

theorem cbcDecAux_decomp
    (hdecLen : ∀ x : Bytes, x.length = b → (decB x).length = b) :
    ∀ (n : Nat) (prev s : Bytes), prev.length = b → s.length = (n + 1) * b →
    ∃ rest : Bytes, cbcDecAux decB b prev (n + 1) s =
      rest ++ xorBytes (decB ((s.drop (n * b)).take b))
        (if n = 0 then prev else (s.drop ((n - 1) * b)).take b) ∧
      rest.length = n * b := by
  intro n
  induction n with
  | zero =>
    intro prev s hprev hs
    refine ⟨[], ?_, by simp⟩
    simp [cbcDecAux]
  | succ m ih =>
    intro prev s hprev hs
    have hmul : (m + 1 + 1) * b = m * b + b + b := by ring
    have hsb : b ≤ s.length := by omega
    have htake : (s.take b).length = b := by
      rw [List.length_take]; omega
    have hdec1 : (decB (s.take b)).length = b := hdecLen _ htake
    have hblock : (xorBytes (decB (s.take b)) prev).length = b := by
      rw [length_xorBytes, hdec1, hprev]; omega
    have hdrop : (s.drop b).length = (m + 1) * b := by
      rw [List.length_drop]
      have : (m + 1) * b = m * b + b := by ring
      omega
    obtain ⟨rest2, heq, hlen2⟩ := ih (s.take b) (s.drop b) htake hdrop
    refine ⟨xorBytes (decB (s.take b)) prev ++ rest2, ?_, ?_⟩
    · have hx : (s.drop b).drop (m * b) = s.drop ((m + 1) * b) := by
        rw [List.drop_drop]
        congr 1
        ring
      have hy : (if m = 0 then s.take b
            else ((s.drop b).drop ((m - 1) * b)).take b) =
          (s.drop (m * b)).take b := by
        cases m with
        | zero => simp
        | succ w =>
          rw [if_neg (by omega), List.drop_drop]
          rw [show w + 1 - 1 = w from rfl,
            show (w + 1) * b = b + w * b by ring]
      rw [show cbcDecAux decB b prev (m + 1 + 1) s =
          xorBytes (decB (s.take b)) prev ++
            cbcDecAux decB b (s.take b) (m + 1) (s.drop b) from rfl]
      rw [heq, hx, hy, List.append_assoc]
      rw [if_neg (by omega : ¬ m + 1 = 0)]
      simp
    · rw [List.length_append, hblock, hlen2]
      ring

theorem cbcOracle_eval {iv : Bytes}
    (hdecLen : ∀ x : Bytes, x.length = b → (decB x).length = b)
    (hb : 0 < b) (hiv : iv.length = b) :
    ∀ (n : Nat) (s : Bytes), s.length = (n + 1) * b →
    cbcOracle decB b iv s = pkcs7valid b
      (xorBytes (decB ((s.drop (n * b)).take b))
        (if n = 0 then iv else (s.drop ((n - 1) * b)).take b)) := by
  intro n s hs
  have hmul : (n + 1) * b = n * b + b := by ring
  have hmod : s.length % b = 0 := by rw [hs]; exact Nat.mul_mod_left _ _
  have hpos : 0 < s.length := by omega
  have hdiv : s.length / b = n + 1 := by rw [hs]; exact Nat.mul_div_cancel _ hb
  rw [cbcOracle, hdiv, hmod]
  rw [decide_eq_true hpos]
  simp only [beq_self_eq_true, Bool.true_and]
  obtain ⟨rest, heq, hrl⟩ := cbcDecAux_decomp hdecLen n iv s hiv hs
  rw [heq]
  apply pkcs7valid_append hb
  have h1 : ((s.drop (n * b)).take b).length = b := by
    rw [List.length_take, List.length_drop]; omega
  have hdecl := hdecLen _ h1
  have h2 : (if n = 0 then iv else (s.drop ((n - 1) * b)).take b).length
      = b := by
    cases n with
    | zero => simpa using hiv
    | succ w =>
      rw [if_neg (by omega)]
      rw [List.length_take, List.length_drop]
      have e1 : (w + 1 + 1) * b = w * b + b + b := by ring
      have e2 : (w + 1 - 1) * b = w * b := by simp
      omega
  rw [length_xorBytes, hdecl, h2]
  omega

end OracleEval

/-! ## The attack against the real oracle -/

section Attack

variable {decB : Bytes → Bytes} {b : Nat} {iv ct pp : Bytes} {N : Nat}

theorem xor_shuffle1 (p c i : Nat) : (p ^^^ c) ^^^ ((i ^^^ p) ^^^ c) = i := by
  rw [Nat.xor_assoc i p c, Nat.xor_comm i (p ^^^ c), Nat.xor_cancel_left]

theorem xor_shuffle2 (p c : Nat) : (p ^^^ c) ^^^ (255 ^^^ c) = p ^^^ 255 := by
  rw [Nat.xor_assoc, Nat.xor_comm 255 c, Nat.xor_cancel_left]

theorem xor255_ne (x : Nat) : ¬ (x ^^^ 255 = x) := by
  intro h
  have h1 : x ^^^ (x ^^^ 255) = x ^^^ x := by rw [h]
  rw [Nat.xor_cancel_left, Nat.xor_self] at h1
  cases h1

/-- When a query agrees with the original ciphertext on the last block, the
oracle's verdict is the padding validity of the CBC decryption of that
block against the query's preceding block. -/
theorem oracle_on_query
    (hdecLen : ∀ x : Bytes, x.length = b → (decB x).length = b)
    (hb : 0 < b) (hiv : iv.length = b)
    (hdecCt : ∀ u, u < N → decB (blkOf ct b (u + 1)) =
      xorBytes (blkOf pp b u) (blkOf ct b u))
    {t : Nat} (ht1 : 1 ≤ t) (htN : t ≤ N)
    {Q : Bytes} (hQlen : Q.length = (t + 1) * b)
    (hQtop : ∀ a, t * b ≤ a → a < (t + 1) * b →
      getElem? Q a = getElem? ct a) :
    cbcOracle decB b iv Q = pkcs7valid b
      (xorBytes (xorBytes (blkOf pp b (t - 1)) (blkOf ct b (t - 1)))
        ((Q.drop ((t - 1) * b)).take b)) := by
  have hmul : (t + 1) * b = t * b + b := by ring
  rw [cbcOracle_eval hdecLen hb hiv t Q hQlen, if_neg (by omega : ¬ t = 0)]
  have hQt : (Q.drop (t * b)).take b = blkOf ct b t := by
    apply List.ext_getElem?
    intro m
    by_cases hm : m < b
    · rw [getElem?_take_lt hm, List.getElem?_drop, blkOf,
        getElem?_take_lt hm, List.getElem?_drop]
      exact hQtop (t * b + m) (by omega) (by omega)
    · have h1 : ((Q.drop (t * b)).take b).length ≤ m := by
        rw [List.length_take]; omega
      have h2 : ((ct.drop (t * b)).take b).length ≤ m := by
        rw [List.length_take]; omega
      rw [List.getElem?_eq_none_iff.mpr h1, blkOf,
        List.getElem?_eq_none_iff.mpr h2]
  rw [hQt]
  have ht : t - 1 + 1 = t := by omega
  have hd := hdecCt (t - 1) (by omega)
  rw [ht] at hd
  rw [hd]

theorem query_dec_length
    (hctlen : ct.length = (N + 1) * b) (hpplen : pp.length = N * b)
    {t : Nat} (ht1 : 1 ≤ t) (htN : t ≤ N)
    {Q : Bytes} (hQlen : Q.length = (t + 1) * b) :
    (xorBytes (xorBytes (blkOf pp b (t - 1)) (blkOf ct b (t - 1)))
      ((Q.drop ((t - 1) * b)).take b)).length = b := by
  have e1 : t * b ≤ N * b := Nat.mul_le_mul_right b htN
  have e2 : (t - 1) * b + b = t * b := by
    have ht : t - 1 + 1 = t := by omega
    calc (t - 1) * b + b = (t - 1 + 1) * b := by ring
    _ = t * b := by rw [ht]
  have e3 : (t + 1) * b = t * b + b := by ring
  have e4 : (N + 1) * b = N * b + b := by ring
  rw [length_xorBytes, length_xorBytes, blkOf, blkOf, List.length_take,
    List.length_take, List.length_take, List.length_drop,
    List.length_drop, List.length_drop, hctlen, hpplen, hQlen]
  omega

theorem nth_query_dec
    (hctlen : ct.length = (N + 1) * b) (hpplen : pp.length = N * b)
    {t : Nat} (ht1 : 1 ≤ t) (htN : t ≤ N)
    {Q : Bytes} (hQlen : Q.length = (t + 1) * b)
    {m : Nat} (hm : m < b) :
    nth (xorBytes (xorBytes (blkOf pp b (t - 1)) (blkOf ct b (t - 1)))
        ((Q.drop ((t - 1) * b)).take b)) m =
      nth pp ((t - 1) * b + m) ^^^ nth ct ((t - 1) * b + m) ^^^
        nth Q ((t - 1) * b + m) := by
  have e1 : t * b ≤ N * b := Nat.mul_le_mul_right b htN
  have e2 : (t - 1) * b + b = t * b := by
    have ht : t - 1 + 1 = t := by omega
    calc (t - 1) * b + b = (t - 1 + 1) * b := by ring
    _ = t * b := by rw [ht]
  have e3 : (t + 1) * b = t * b + b := by ring
  have e4 : (N + 1) * b = N * b + b := by ring
  have hppb : (blkOf pp b (t - 1)).length = b := by
    rw [blkOf, List.length_take, List.length_drop, hpplen]; omega
  have hctb : (blkOf ct b (t - 1)).length = b := by
    rw [blkOf, List.length_take, List.length_drop, hctlen]; omega
  have hQb : ((Q.drop ((t - 1) * b)).take b).length = b := by
    rw [List.length_take, List.length_drop, hQlen]; omega
  rw [nth_xorBytes (by rw [length_xorBytes, hppb, hctb]; omega)
      (by rw [hQb]; omega),
    nth_xorBytes (by rw [hppb]; omega) (by rw [hctb]; omega)]
  rw [blkOf, blkOf, nth_take hm, nth_take hm, nth_take hm, nth_drop,
    nth_drop, nth_drop]

/-- The core byte step: at block `t`, position `i`, with the already-solved
bytes of this block available in the accumulator, the candidate scan run
against the real padding oracle confirms exactly the candidate
`pp[offset] XOR ct[offset] XOR i`. -/
theorem byte_step
    (hdecLen : ∀ x : Bytes, x.length = b → (decB x).length = b)
    (hb : 0 < b) (hb255 : b ≤ 255) (hiv : iv.length = b)
    (hctlen : ct.length = (N + 1) * b) (hpplen : pp.length = N * b)
    (hctval : validBytes ct) (hppval : validBytes pp)
    (hdecCt : ∀ u, u < N → decB (blkOf ct b (u + 1)) =
      xorBytes (blkOf pp b u) (blkOf ct b u))
    {t i : Nat} (ht1 : 1 ≤ t) (htN : t ≤ N) (hi1 : 1 ≤ i) (hib : i ≤ b)
    {pt : Bytes} (hptlen : i - 1 ≤ pt.length)
    (hpt : ∀ x, x < i - 1 → nth pt x = nth pp (t * b - i + 1 + x)) :
    ∃ c1, fixPadding (t * b - i) i pt (ct.take ((t + 1) * b)) = some c1 ∧
      (findK (cbcOracle decB b iv) b (t * b - i) c1 (List.range 256)).1 =
        ScanOut.found (nth pp (t * b - i) ^^^ nth ct (t * b - i) ^^^ i) := by
  have e1 : t * b ≤ N * b := Nat.mul_le_mul_right b htN
  have e2 : (t - 1) * b + b = t * b := by
    have ht : t - 1 + 1 = t := by omega
    calc (t - 1) * b + b = (t - 1 + 1) * b := by ring
    _ = t * b := by rw [ht]
  have e3 : (t + 1) * b = t * b + b := by ring
  have e4 : (N + 1) * b = N * b + b := by ring
  have hcwlen : (ct.take ((t + 1) * b)).length = (t + 1) * b := by
    rw [List.length_take, hctlen]; omega
  obtain ⟨c1, hfix⟩ := @fixLoop_isSome (t * b - i) i
    pt (List.range' 1 (i - 1)) (ct.take ((t + 1) * b))
    (fun j hj => by
      have hjm := List.mem_range'_1.mp hj
      constructor
      · omega
      · rw [hcwlen]; omega)
  refine ⟨c1, hfix, ?_⟩
  have hc1len : c1.length = (t + 1) * b := by
    rw [fixLoop_length hfix, hcwlen]
  have hoffc1 : t * b - i < c1.length := by rw [hc1len]; omega
  have hUn : ∀ a, (a < t * b - i + 1 ∨ t * b - i + i ≤ a) →
      getElem? c1 a = getElem? (ct.take ((t + 1) * b)) a := by
    intro a ha
    apply fixLoop_untouched hfix
    intro j hj
    have hjm := List.mem_range'_1.mp hj
    omega
  have hc1ct : ∀ a, (a < t * b - i + 1 ∨ t * b - i + i ≤ a) →
      a < (t + 1) * b → nth c1 a = nth ct a := by
    intro a ha haL
    rw [nth, hUn a ha, getElem?_take_lt haL, nth]
  have hforged : ∀ j, 1 ≤ j → j < i →
      nth c1 (t * b - i + j) =
        i ^^^ nth pp (t * b - i + j) ^^^ nth ct (t * b - i + j) := by
    intro j hj1 hj2
    have h0 := fixLoop_nth (i - 1) hfix j hj1 (by omega)
    rw [h0, Nat.mod_eq_of_lt (by omega : i < 256)]
    have h1 := hpt (j - 1) (by omega)
    have h2 : t * b - i + 1 + (j - 1) = t * b - i + j := by omega
    rw [h2] at h1
    rw [h1, nth_take (by omega)]
  have hQlen : ∀ k : Nat, (c1.set (t * b - i) k).length = (t + 1) * b := by
    intro k; rw [List.length_set, hc1len]
  have hQtop : ∀ (k : Nat) a, t * b ≤ a → a < (t + 1) * b →
      getElem? (c1.set (t * b - i) k) a = getElem? ct a := by
    intro k a ha1 ha2
    rw [List.getElem?_set_ne (by omega : t * b - i ≠ a),
      hUn a (by omega), getElem?_take_lt ha2]
  set D : Nat → Bytes := fun k =>
    xorBytes (xorBytes (blkOf pp b (t - 1)) (blkOf ct b (t - 1)))
      (((c1.set (t * b - i) k).drop ((t - 1) * b)).take b) with hD
  have horc : ∀ k : Nat, cbcOracle decB b iv (c1.set (t * b - i) k) =
      pkcs7valid b (D k) := fun k =>
    oracle_on_query hdecLen hb hiv hdecCt ht1 htN (hQlen k) (hQtop k)
  have hDlen : ∀ k : Nat, (D k).length = b := fun k =>
    query_dec_length hctlen hpplen ht1 htN (hQlen k)
  have hDnth : ∀ (k m : Nat), m < b → nth (D k) m =
      nth pp ((t - 1) * b + m) ^^^ nth ct ((t - 1) * b + m) ^^^
        nth (c1.set (t * b - i) k) ((t - 1) * b + m) :=
    fun k m hm => nth_query_dec hctlen hpplen ht1 htN (hQlen k) hm
  have hz2 : ∀ k : Nat, nth (c1.set (t * b - i) k) (t * b - i) = k :=
    fun k => nth_set_self k hoffc1
  have hz1 : ∀ (k m : Nat), m < b - i →
      nth (c1.set (t * b - i) k) ((t - 1) * b + m) =
        nth ct ((t - 1) * b + m) := by
    intro k m hm
    rw [nth_set_ne _ _ (by omega : t * b - i ≠ (t - 1) * b + m)]
    exact hc1ct _ (by omega) (by omega)
  have hz3 : ∀ (k j : Nat), 1 ≤ j → j < i →
      nth (c1.set (t * b - i) k) (t * b - i + j) =
        i ^^^ nth pp (t * b - i + j) ^^^ nth ct (t * b - i + j) := by
    intro k j h1 h2
    rw [nth_set_ne _ _ (by omega : t * b - i ≠ t * b - i + j)]
    exact hforged j h1 h2
  have hD1 : ∀ (k m : Nat), m < b - i →
      nth (D k) m = nth pp ((t - 1) * b + m) := by
    intro k m hm
    rw [hDnth k m (by omega), hz1 k m hm, Nat.xor_cancel_right]
  have hD2 : ∀ k : Nat, nth (D k) (b - i) =
      nth pp (t * b - i) ^^^ nth ct (t * b - i) ^^^ k := by
    intro k
    have hidx : (t - 1) * b + (b - i) = t * b - i := by omega
    rw [hDnth k (b - i) (by omega), hidx, hz2 k]
  have hD3 : ∀ (k m : Nat), b - i < m → m < b → nth (D k) m = i := by
    intro k m hm1 hm2
    have hidx : (t - 1) * b + m = t * b - i + (m - (b - i)) := by omega
    rw [hDnth k m hm2, hidx, hz3 k (m - (b - i)) (by omega) (by omega)]
    exact xor_shuffle1 _ _ _
  have hvalD : ∀ k : Nat, (pkcs7valid b (D k) = true ↔
      (1 ≤ nth (D k) (b - 1) ∧ nth (D k) (b - 1) ≤ b ∧
        ∀ m, b - nth (D k) (b - 1) ≤ m → m < b →
          nth (D k) m = nth (D k) (b - 1))) :=
    fun k => pkcs7valid_iff hb (hDlen k)
  have hppofft : t * b - i < pp.length := by rw [hpplen]; omega
  have hctofft : t * b - i < ct.length := by rw [hctlen]; omega
  have hkstar256 : nth pp (t * b - i) ^^^ nth ct (t * b - i) ^^^ i < 256 :=
    xor_lt_256 (xor_lt_256 (nth_lt_of_valid hppval hppofft)
      (nth_lt_of_valid hctval hctofft)) (by omega)
  have hxkstar : nth pp (t * b - i) ^^^ nth ct (t * b - i) ^^^
      (nth pp (t * b - i) ^^^ nth ct (t * b - i) ^^^ i) = i :=
    Nat.xor_cancel_left _ _
  have hinj : ∀ j k : Nat,
      nth pp (t * b - i) ^^^ nth ct (t * b - i) ^^^ j =
        nth pp (t * b - i) ^^^ nth ct (t * b - i) ^^^ k → j = k := by
    intro j k h
    have h1 := congrArg
      (fun z => nth pp (t * b - i) ^^^ nth ct (t * b - i) ^^^ z) h
    simpa only [Nat.xor_cancel_left] using h1
  suffices hconf :
      confB (cbcOracle decB b iv) b (t * b - i) c1
        (nth pp (t * b - i) ^^^ nth ct (t * b - i) ^^^ i) = true ∧
      ∀ j, j < nth pp (t * b - i) ^^^ nth ct (t * b - i) ^^^ i →
        confB (cbcOracle decB b iv) b (t * b - i) c1 j = false by
    rw [findK_fst hoffc1, List.range_eq_range']
    rw [(find?_range'_some 256 0 _).mpr
      ⟨by omega, by omega, hconf.1, fun j h1 h2 => hconf.2 j h2⟩]
    simp
  -- the flip-query facts, available whenever i < b
  set FD : Nat → Bytes := fun k =>
    xorBytes (xorBytes (blkOf pp b (t - 1)) (blkOf ct b (t - 1)))
      ((((c1.set (t * b - i) k).set (t * b - i - 1)
        (255 ^^^ nth (c1.set (t * b - i) k) (t * b - i - 1))).drop
          ((t - 1) * b)).take b) with hFD
  have hFlen : ∀ k : Nat,
      ((c1.set (t * b - i) k).set (t * b - i - 1)
        (255 ^^^ nth (c1.set (t * b - i) k) (t * b - i - 1))).length =
        (t + 1) * b := by
    intro k; rw [List.length_set, hQlen]
  have hflip_facts : i < b → ∀ k : Nat,
      cbcOracle decB b iv
        ((c1.set (t * b - i) k).set (t * b - i - 1)
          (255 ^^^ nth (c1.set (t * b - i) k) (t * b - i - 1))) =
      pkcs7valid b (FD k) := by
    intro hilt k
    apply oracle_on_query hdecLen hb hiv hdecCt ht1 htN (hFlen k)
    intro a ha1 ha2
    rw [List.getElem?_set_ne (by omega : t * b - i - 1 ≠ a)]
    exact hQtop k a ha1 ha2
  have hFDlen : ∀ k : Nat, (FD k).length = b := fun k =>
    query_dec_length hctlen hpplen ht1 htN (hFlen k)
  have hFDnth : ∀ (k m : Nat), m < b → nth (FD k) m =
      nth pp ((t - 1) * b + m) ^^^ nth ct ((t - 1) * b + m) ^^^
        nth ((c1.set (t * b - i) k).set (t * b - i - 1)
          (255 ^^^ nth (c1.set (t * b - i) k) (t * b - i - 1)))
          ((t - 1) * b + m) :=
    fun k m hm => nth_query_dec hctlen hpplen ht1 htN (hFlen k) hm
  have hflipval : i < b → ∀ k : Nat,
      nth (c1.set (t * b - i) k) (t * b - i - 1) =
        nth ct (t * b - i - 1) := by
    intro hilt k
    rw [nth_set_ne _ _ (by omega : t * b - i ≠ t * b - i - 1)]
    exact hc1ct _ (by omega) (by omega)
  have hFz_ge : i < b → ∀ (k m : Nat), b - i ≤ m → m < b →
      nth ((c1.set (t * b - i) k).set (t * b - i - 1)
        (255 ^^^ nth (c1.set (t * b - i) k) (t * b - i - 1)))
        ((t - 1) * b + m) =
      nth (c1.set (t * b - i) k) ((t - 1) * b + m) := by
    intro hilt k m hm1 hm2
    exact nth_set_ne _ _ (by omega : t * b - i - 1 ≠ (t - 1) * b + m)
  have hFD_ge : i < b → ∀ (k m : Nat), b - i ≤ m → m < b →
      nth (FD k) m = nth (D k) m := by
    intro hilt k m hm1 hm2
    rw [hFDnth k m hm2, hDnth k m hm2, hFz_ge hilt k m hm1 hm2]
  have hFD_flip : i < b → ∀ k : Nat,
      nth (FD k) (b - i - 1) = nth pp (t * b - i - 1) ^^^ 255 := by
    intro hilt k
    have hidx : (t - 1) * b + (b - i - 1) = t * b - i - 1 := by omega
    rw [hFDnth k (b - i - 1) (by omega), hidx,
      nth_set_self _ (by rw [hQlen]; omega), hflipval hilt k]
    exact xor_shuffle2 _ _
  have hmodb : i = b → (t * b - i) % b = 0 := by
    intro h
    have h1 : t * b - i = (t - 1) * b := by omega
    rw [h1]
    exact Nat.mul_mod_left _ _
  have hmodlt : i < b → (t * b - i) % b = b - i := by
    intro h
    have h1 : t * b - i = b - i + (t - 1) * b := by omega
    rw [h1, Nat.add_mul_mod_self_right, Nat.mod_eq_of_lt (by omega)]
  by_cases hi2 : 2 ≤ i
  · -- positions 2 ≤ i ≤ b: the forged trailing bytes pin the padding
    -- marker, so exactly one candidate passes even the first query
    have hlast : ∀ k : Nat, nth (D k) (b - 1) = i :=
      fun k => hD3 k (b - 1) (by omega) (by omega)
    have hfq2 : ∀ k : Nat, (pkcs7valid b (D k) = true ↔
        k = nth pp (t * b - i) ^^^ nth ct (t * b - i) ^^^ i) := by
      intro k
      rw [hvalD k, hlast k]
      constructor
      · rintro ⟨-, -, h⟩
        have h1 := h (b - i) (by omega) (by omega)
        rw [hD2 k] at h1
        exact hinj k _ (h1.trans hxkstar.symm)
      · rintro rfl
        refine ⟨by omega, by omega, fun m h1 h2 => ?_⟩
        by_cases hm : m = b - i
        · rw [hm, hD2 _]
          exact hxkstar
        · exact hD3 _ m (by omega) h2
    constructor
    · simp only [confB]
      rw [horc _, (hfq2 _).mpr rfl]
      by_cases hieq : i = b
      · rw [hmodb hieq]
        simp
      · have hilt : i < b := by omega
        rw [hflip_facts hilt _]
        have hsq : pkcs7valid b
            (FD (nth pp (t * b - i) ^^^ nth ct (t * b - i) ^^^ i)) =
              true := by
          rw [pkcs7valid_iff hb (hFDlen _),
            hFD_ge hilt _ (b - 1) (by omega) (by omega), hlast _]
          refine ⟨by omega, by omega, fun m h1 h2 => ?_⟩
          rw [hFD_ge hilt _ m (by omega) h2]
          by_cases hm : m = b - i
          · rw [hm, hD2 _]
            exact hxkstar
          · exact hD3 _ m (by omega) h2
        rw [hsq]
        simp
    · intro j hj
      simp only [confB]
      rw [horc j]
      have hf : pkcs7valid b (D j) = false := by
        rw [Bool.eq_false_iff]
        intro hcon
        have := (hfq2 j).mp hcon
        omega
      rw [hf]
      simp
  · -- position i = 1: the confirmation re-query eliminates every
    -- false positive
    have hi1' : i = 1 := by omega
    subst hi1'
    have hfq : ∀ k : Nat, (pkcs7valid b (D k) = true ↔
        (1 ≤ nth pp (t * b - 1) ^^^ nth ct (t * b - 1) ^^^ k ∧
          nth pp (t * b - 1) ^^^ nth ct (t * b - 1) ^^^ k ≤ b ∧
          ∀ m, b - (nth pp (t * b - 1) ^^^ nth ct (t * b - 1) ^^^ k) ≤ m →
            m < b - 1 → nth pp ((t - 1) * b + m) =
              nth pp (t * b - 1) ^^^ nth ct (t * b - 1) ^^^ k)) := by
      intro k
      rw [hvalD k, hD2 k]
      constructor
      · rintro ⟨h1, h2, h3⟩
        refine ⟨h1, h2, fun m hm1 hm2 => ?_⟩
        have h4 := h3 m hm1 (by omega)
        rwa [hD1 k m (by omega)] at h4
      · rintro ⟨h1, h2, h3⟩
        refine ⟨h1, h2, fun m hm1 hm2 => ?_⟩
        by_cases hm : m = b - 1
        · rw [hm]
          exact hD2 k
        · rw [hD1 k m (by omega)]
          exact h3 m hm1 (by omega)
    by_cases hb1 : b = 1
    · -- one-byte blocks: the first byte of the block, immediate accept
      have hmod1 : (t * b - 1) % b = 0 := hmodb hb1.symm
      have hx1iff : ∀ k : Nat, (pkcs7valid b (D k) = true ↔
          k = nth pp (t * b - 1) ^^^ nth ct (t * b - 1) ^^^ 1) := by
        intro k
        rw [hfq k]
        constructor
        · rintro ⟨h1, h2, -⟩
          have hx : nth pp (t * b - 1) ^^^ nth ct (t * b - 1) ^^^ k = 1 := by
            omega
          exact hinj k _ (hx.trans hxkstar.symm)
        · rintro rfl
          refine ⟨by rw [hxkstar], by rw [hxkstar]; omega,
            fun m hm1 hm2 => by omega⟩
      constructor
      · simp only [confB]
        rw [horc _, (hx1iff _).mpr rfl, hmod1]
        simp
      · intro j hj
        simp only [confB]
        rw [horc j]
        have hf : pkcs7valid b (D j) = false := by
          rw [Bool.eq_false_iff]
          intro hcon
          have := (hx1iff j).mp hcon
          omega
        rw [hf]
        simp
    · -- blocks of two or more bytes: the neighbour-byte flip rejects
      -- every false positive of the first query
      have hb2 : 1 < b := by omega
      have hmodne : ¬ ((t * b - 1) % b = 0) := by
        rw [hmodlt hb2]; omega
      have hsq : ∀ k : Nat, (pkcs7valid b (FD k) = true ↔
          (1 ≤ nth pp (t * b - 1) ^^^ nth ct (t * b - 1) ^^^ k ∧
            nth pp (t * b - 1) ^^^ nth ct (t * b - 1) ^^^ k ≤ b ∧
            ∀ m, b - (nth pp (t * b - 1) ^^^ nth ct (t * b - 1) ^^^ k) ≤ m →
              m < b → nth (FD k) m =
                nth pp (t * b - 1) ^^^ nth ct (t * b - 1) ^^^ k)) := by
        intro k
        rw [pkcs7valid_iff hb (hFDlen k),
          hFD_ge hb2 k (b - 1) (by omega) (by omega), hD2 k]
      constructor
      · simp only [confB]
        rw [horc _]
        have hf1 : pkcs7valid b
            (D (nth pp (t * b - 1) ^^^ nth ct (t * b - 1) ^^^ 1)) =
              true := by
          rw [hfq _]
          refine ⟨by rw [hxkstar], by rw [hxkstar]; omega,
            fun m hm1 hm2 => ?_⟩
          rw [hxkstar] at hm1
          omega
        rw [hf1, hflip_facts hb2 _]
        have hf2 : pkcs7valid b
            (FD (nth pp (t * b - 1) ^^^ nth ct (t * b - 1) ^^^ 1)) =
              true := by
          rw [hsq _]
          refine ⟨by rw [hxkstar], by rw [hxkstar]; omega,
            fun m hm1 hm2 => ?_⟩
          rw [hxkstar] at hm1 ⊢
          have hm' : m = b - 1 := by omega
          rw [hm', hFD_ge hb2 _ (b - 1) (by omega) (by omega), hD2 _,
            hxkstar]
        rw [hf2]
        simp
      · intro j hj
        simp only [confB]
        rw [horc j]
        cases hf1 : pkcs7valid b (D j) with
        | false => simp
        | true =>
          obtain ⟨hx1, hx2, hx3⟩ := (hfq j).mp hf1
          have hxne : ¬ (nth pp (t * b - 1) ^^^ nth ct (t * b - 1) ^^^ j
              = 1) := by
            intro hcon
            have := hinj j _ (hcon.trans hxkstar.symm)
            omega
          have hxge2 : 2 ≤ nth pp (t * b - 1) ^^^ nth ct (t * b - 1) ^^^ j
              := by omega
          have hpp2 : nth pp ((t - 1) * b + (b - 2)) =
              nth pp (t * b - 1) ^^^ nth ct (t * b - 1) ^^^ j :=
            hx3 (b - 2) (by omega) (by omega)
          rw [hflip_facts hb2 j]
          have hf2 : pkcs7valid b (FD j) = false := by
            rw [Bool.eq_false_iff]
            intro hcon
            obtain ⟨-, -, h3⟩ := (hsq j).mp hcon
            have h4 := h3 (b - 2) (by omega) (by omega)
            have h5 := hFD_flip hb2 j
            have hbb : b - 1 - 1 = b - 2 := by omega
            have hidx : t * b - 1 - 1 = (t - 1) * b + (b - 2) := by omega
            rw [hbb, hidx] at h5
            rw [h5, hpp2] at h4
            exact xor255_ne _ h4
          rw [hf2]
          simp [hmodne]

theorem xor_recover (p c i : Nat) : c ^^^ (p ^^^ c ^^^ i) ^^^ i = p := by
  rw [← Nat.xor_assoc c (p ^^^ c) i, Nat.xor_comm p c, Nat.xor_cancel_left]
  exact Nat.xor_cancel_right _ _

/-- Solving the remaining `q` byte positions of block `t` extends the
accumulator from `pp.drop ((t-1)*b + q)` to `pp.drop ((t-1)*b)`. -/
theorem solveBlock_attack
    (hdecLen : ∀ x : Bytes, x.length = b → (decB x).length = b)
    (hb : 0 < b) (hb255 : b ≤ 255) (hiv : iv.length = b)
    (hctlen : ct.length = (N + 1) * b) (hpplen : pp.length = N * b)
    (hctval : validBytes ct) (hppval : validBytes pp)
    (hdecCt : ∀ u, u < N → decB (blkOf ct b (u + 1)) =
      xorBytes (blkOf pp b u) (blkOf ct b u))
    {t : Nat} (ht1 : 1 ≤ t) (htN : t ≤ N) :
    ∀ (q : Nat), q ≤ b →
    (solveBlock (cbcOracle decB b iv) b (List.range' (b - q + 1) q)
      (pp.drop ((t - 1) * b + q)) (ct.take ((t + 1) * b))).1 =
      DResult.ok (pp.drop ((t - 1) * b)) := by
  intro q
  induction q with
  | zero =>
    intro _
    simp only [List.range', solveBlock, Nat.add_zero]
  | succ r ih =>
    intro hq
    have e1 : t * b ≤ N * b := Nat.mul_le_mul_right b htN
    have e2 : (t - 1) * b + b = t * b := by
      have ht : t - 1 + 1 = t := by omega
      calc (t - 1) * b + b = (t - 1 + 1) * b := by ring
      _ = t * b := by rw [ht]
    have e3 : (t + 1) * b = t * b + b := by ring
    have e4 : (N + 1) * b = N * b + b := by ring
    have hi1 : 1 ≤ b - r := by omega
    have hib : b - r ≤ b := by omega
    have hcwlen : (ct.take ((t + 1) * b)).length = (t + 1) * b := by
      rw [List.length_take, hctlen]; omega
    have hptlen2 : (b - r) - 1 ≤ (pp.drop ((t - 1) * b + r + 1)).length := by
      rw [List.length_drop, hpplen]; omega
    have hpt2 : ∀ x, x < (b - r) - 1 →
        nth (pp.drop ((t - 1) * b + r + 1)) x =
          nth pp (t * b - (b - r) + 1 + x) := by
      intro x hx
      rw [nth_drop]
      congr 1
      omega
    obtain ⟨c1, hfix, hfind⟩ := byte_step hdecLen hb hb255 hiv hctlen hpplen
      hctval hppval hdecCt ht1 htN hi1 hib hptlen2 hpt2
    have hrange : List.range' (b - (r + 1) + 1) (r + 1) =
        (b - r) :: List.range' (b - r + 1) r := by
      have h1 : b - (r + 1) + 1 = b - r := by omega
      rw [h1, List.range'_succ]
    have hidx0 : (t - 1) * b + (r + 1) = (t - 1) * b + r + 1 := by omega
    rw [hrange, hidx0]
    have hsub : subChk (ct.take ((t + 1) * b)).length (b + (b - r)) =
        some (t * b - (b - r)) := by
      rw [hcwlen]
      simp only [subChk, if_pos (by omega : b + (b - r) ≤ (t + 1) * b)]
      congr 1
      omega
    have hoffb : t * b - (b - r) < (ct.take ((t + 1) * b)).length := by
      rw [hcwlen]; omega
    have hini := getElem?_eq_some_nth hoffb
    rw [solveBlock_cons_found hsub hini hfix (Prod.ext hfind rfl)]
    have hofft : t * b - (b - r) = (t - 1) * b + r := by omega
    have hppofft : (t - 1) * b + r < pp.length := by rw [hpplen]; omega
    have hacc : nth (ct.take ((t + 1) * b)) (t * b - (b - r)) ^^^
        (nth pp (t * b - (b - r)) ^^^ nth ct (t * b - (b - r)) ^^^ (b - r))
          ^^^ ((b - r) % 256) = nth pp ((t - 1) * b + r) := by
      rw [nth_take (by omega), Nat.mod_eq_of_lt (by omega : b - r < 256),
        hofft]
      exact xor_recover _ _ _
    have hcons : (nth pp ((t - 1) * b + r)) ::
        pp.drop ((t - 1) * b + r + 1) = pp.drop ((t - 1) * b + r) := by
      rw [nth_eq_getElem hppofft]
      exact (List.drop_eq_getElem_cons hppofft).symm
    rw [hacc, hcons]
    exact ih (by omega)

/-- Solving all `t` remaining block pairs extends the accumulator from
`pp.drop (t*b)` to the full padded plaintext. -/
theorem solveBlocks_attack
    (hdecLen : ∀ x : Bytes, x.length = b → (decB x).length = b)
    (hb : 0 < b) (hb255 : b ≤ 255) (hiv : iv.length = b)
    (hctlen : ct.length = (N + 1) * b) (hpplen : pp.length = N * b)
    (hctval : validBytes ct) (hppval : validBytes pp)
    (hdecCt : ∀ u, u < N → decB (blkOf ct b (u + 1)) =
      xorBytes (blkOf pp b u) (blkOf ct b u)) :
    ∀ (t : Nat), t ≤ N →
    (solveBlocks (cbcOracle decB b iv) b t (pp.drop (t * b))
      (ct.take ((t + 1) * b))).1 = DResult.ok pp := by
  intro t
  induction t with
  | zero =>
    intro _
    simp [solveBlocks]
  | succ m ih =>
    intro htN
    have e3 : (m + 1 + 1) * b = (m + 1) * b + b := by ring
    have e5 : (m + 1) * b = m * b + b := by ring
    have hblk := solveBlock_attack hdecLen hb hb255 hiv hctlen hpplen
      hctval hppval hdecCt (t := m + 1) (by omega) htN b (Nat.le_refl b)
    have hms : m + 1 - 1 = m := by omega
    rw [hms] at hblk
    have hrange : List.range' (b - b + 1) b = List.range' 1 b := by
      congr 1
      omega
    rw [hrange] at hblk
    have hpteq : m * b + b = (m + 1) * b := by omega
    rw [hpteq] at hblk
    cases hres : solveBlock (cbcOracle decB b iv) b (List.range' 1 b)
        (pp.drop ((m + 1) * b)) (ct.take ((m + 1 + 1) * b)) with
    | mk out qs =>
      rw [hres] at hblk
      simp only at hblk
      cases out with
      | ok pt2 =>
        have hpt2 : pt2 = pp.drop (m * b) := by
          have : DResult.ok pt2 = DResult.ok (pp.drop (m * b)) := hblk
          cases this
          rfl
        subst hpt2
        have hcwlen : (ct.take ((m + 1 + 1) * b)).length =
            (m + 1 + 1) * b := by
          rw [List.length_take, hctlen]
          have e4 : (N + 1) * b = N * b + b := by ring
          have e6 : (m + 1 + 1) * b ≤ (N + 1) * b :=
            Nat.mul_le_mul_right b (by omega)
          omega
        have hsub : subChk (ct.take ((m + 1 + 1) * b)).length b =
            some ((m + 1) * b) := by
          rw [hcwlen]
          simp only [subChk, if_pos (by omega : b ≤ (m + 1 + 1) * b)]
          congr 1
          omega
        simp only [solveBlocks, hres, hsub]
        have htake : (ct.take ((m + 1 + 1) * b)).take ((m + 1) * b) =
            ct.take ((m + 1) * b) := by
          rw [List.take_take]
          congr 1
          omega
        rw [htake]
        exact ih (by omega)
      | err e => cases hblk
      | panic => cases hblk

/-- The full attack run: on any ciphertext whose blocks decrypt (under the
oracle's block cipher) to the padded plaintext chained with CBC, the
decryptor returns exactly that padded plaintext. -/
theorem attack_roundtrip
    (hdecLen : ∀ x : Bytes, x.length = b → (decB x).length = b)
    (hb : 0 < b) (hb255 : b ≤ 255) (hiv : iv.length = b)
    (hctlen : ct.length = (N + 1) * b) (hpplen : pp.length = N * b)
    (hctval : validBytes ct) (hppval : validBytes pp)
    (hdecCt : ∀ u, u < N → decB (blkOf ct b (u + 1)) =
      xorBytes (blkOf pp b u) (blkOf ct b u)) :
    decrypt ct b (cbcOracle decB b iv) = DResult.ok pp := by
  have hb0 : ¬ b = 0 := by omega
  have hmod : ct.length % b = 0 := by rw [hctlen]; exact Nat.mul_mod_left _ _
  have hdiv : ct.length / b = N + 1 := by
    rw [hctlen]; exact Nat.mul_div_cancel _ hb
  have hn : 1 ≤ ct.length / b := by omega
  rw [decrypt, decryptT_aligned hb0 hmod hn, hdiv]
  have h1 : pp.drop (N * b) = [] :=
    List.drop_of_length_le (by rw [hpplen])
  have h2 : ct.take ((N + 1) * b) = ct :=
    List.take_of_length_le (by rw [hctlen])
  have h3 := solveBlocks_attack hdecLen hb hb255 hiv hctlen hpplen hctval
    hppval hdecCt N (Nat.le_refl N)
  rw [h1, h2] at h3
  simpa using h3

end Attack

/-! ## The spec-modelled CBC encryption: lengths, validity and blocks -/

section EncSide

variable {encB : Bytes → Bytes} {b : Nat}

theorem cbcEncAux_valid
    (henc : ∀ x : Bytes, x.length = b → validBytes x →
      (encB x).length = b ∧ validBytes (encB x)) :
    ∀ (n : Nat) (prev p : Bytes), prev.length = b → validBytes prev →
      p.length = n * b → validBytes p →
      (cbcEncAux encB b prev n p).length = n * b ∧
        validBytes (cbcEncAux encB b prev n p) := by
  intro n
  induction n with
  | zero =>
    intro prev p _ _ _ _
    exact ⟨by simp [cbcEncAux], by intro y hy; simp [cbcEncAux] at hy⟩
  | succ m ih =>
    intro prev p hprev hprevv hp hpv
    have hmul : (m + 1) * b = m * b + b := by ring
    have htake : (p.take b).length = b := by rw [List.length_take]; omega
    have hxlen : (xorBytes (p.take b) prev).length = b := by
      rw [length_xorBytes, htake, hprev]; omega
    have hxval : validBytes (xorBytes (p.take b) prev) :=
      validBytes_xorBytes (validBytes_take hpv b) hprevv
    obtain ⟨hclen, hcval⟩ := henc _ hxlen hxval
    have hdrop : (p.drop b).length = m * b := by rw [List.length_drop]; omega
    obtain ⟨hrlen, hrval⟩ := ih (encB (xorBytes (p.take b) prev)) (p.drop b)
      hclen hcval hdrop (validBytes_drop hpv b)
    constructor
    · simp only [cbcEncAux]
      rw [List.length_append, hclen, hrlen]
      omega
    · simp only [cbcEncAux]
      exact validBytes_append hcval hrval

theorem cbcEncAux_blk (hb : 0 < b)
    (henc : ∀ x : Bytes, x.length = b → validBytes x →
      (encB x).length = b ∧ validBytes (encB x)) :
    ∀ (n : Nat) (prev p : Bytes) (u : Nat), u < n → prev.length = b →
      validBytes prev → p.length = n * b → validBytes p →
      blkOf (cbcEncAux encB b prev n p) b u =
        encB (xorBytes (blkOf p b u)
          (if u = 0 then prev
            else blkOf (cbcEncAux encB b prev n p) b (u - 1))) := by
  intro n
  induction n with
  | zero => intro prev p u hu; omega
  | succ m ih =>
    intro prev p u hu hprev hprevv hp hpv
    have hmul : (m + 1) * b = m * b + b := by ring
    have htake : (p.take b).length = b := by rw [List.length_take]; omega
    have hxlen : (xorBytes (p.take b) prev).length = b := by
      rw [length_xorBytes, htake, hprev]; omega
    have hxval : validBytes (xorBytes (p.take b) prev) :=
      validBytes_xorBytes (validBytes_take hpv b) hprevv
    obtain ⟨hclen, hcval⟩ := henc _ hxlen hxval
    have hdrop : (p.drop b).length = m * b := by rw [List.length_drop]; omega
    have hunf : cbcEncAux encB b prev (m + 1) p =
        encB (xorBytes (p.take b) prev) ++
          cbcEncAux encB b (encB (xorBytes (p.take b) prev)) m
            (p.drop b) := rfl
    have hblk0 : blkOf (encB (xorBytes (p.take b) prev) ++
        cbcEncAux encB b (encB (xorBytes (p.take b) prev)) m (p.drop b))
        b 0 = encB (xorBytes (p.take b) prev) := by
      rw [blkOf]
      simp only [Nat.zero_mul, List.drop_zero]
      have h := List.take_left (encB (xorBytes (p.take b) prev))
        (cbcEncAux encB b (encB (xorBytes (p.take b) prev)) m (p.drop b))
      rw [hclen] at h
      exact h
    have hshift : ∀ z : Nat, blkOf (encB (xorBytes (p.take b) prev) ++
        cbcEncAux encB b (encB (xorBytes (p.take b) prev)) m (p.drop b))
          b (z + 1) =
        blkOf (cbcEncAux encB b (encB (xorBytes (p.take b) prev)) m
          (p.drop b)) b z := by
      intro z
      rw [blkOf, blkOf]
      have h1 : (z + 1) * b = (encB (xorBytes (p.take b) prev)).length
          + z * b := by rw [hclen]; ring
      rw [h1, List.drop_append]
    cases u with
    | zero =>
      rw [hunf, if_pos rfl, hblk0]
      rw [blkOf]
      simp
    | succ w =>
      rw [hunf, if_neg (Nat.succ_ne_zero w), hshift w]
      have hblkp : blkOf (p.drop b) b w = blkOf p b (w + 1) := by
        rw [blkOf, blkOf, List.drop_drop]
        congr 2
        ring
      have hih := ih (encB (xorBytes (p.take b) prev)) (p.drop b) w
        (by omega) hclen hcval hdrop (validBytes_drop hpv b)
      rw [hih, hblkp]
      have hpre : (if w = 0 then encB (xorBytes (p.take b) prev)
          else blkOf (cbcEncAux encB b (encB (xorBytes (p.take b) prev)) m
            (p.drop b)) b (w - 1)) =
          blkOf (encB (xorBytes (p.take b) prev) ++
            cbcEncAux encB b (encB (xorBytes (p.take b) prev)) m
              (p.drop b)) b (w + 1 - 1) := by
        rw [show w + 1 - 1 = w from rfl]
        cases w with
        | zero => rw [if_pos rfl, hblk0]
        | succ v =>
          rw [if_neg (Nat.succ_ne_zero v), hshift v]
          rw [show v + 1 - 1 = v from rfl]
      rw [hpre]

end EncSide

/-- C1: the round-trip property.  For any plaintext `P`, any block cipher
(`encB` with inverse `decB`, length-preserving on blocks, byte-valued) and
any IV, CBC-encrypting the PKCS#7-padded `P` with the IV prepended and
then running `decrypt` against the padding oracle backed by the same
key/IV returns `Ok` of exactly `P` padded to the block boundary (so
stripping the padding reproduces `P`). -/
theorem claim_C1 (b : Nat) (encB decB : Bytes → Bytes) (iv P : Bytes)
    (hb : 0 < b) (hb255 : b ≤ 255)
    (hiv : iv.length = b) (hivval : validBytes iv)
    (hPval : validBytes P)
    (henc : ∀ x : Bytes, x.length = b → validBytes x →
      (encB x).length = b ∧ validBytes (encB x))
    (hdec : ∀ x : Bytes, x.length = b → validBytes x → decB (encB x) = x)
    (hdecLen : ∀ x : Bytes, x.length = b → (decB x).length = b) :
    decrypt (encryptCbc encB b iv P) b (cbcOracle decB b iv) =
      DResult.ok (pkcs7pad b P) := by
  set N := P.length / b + 1 with hN
  have hpplen : (pkcs7pad b P).length = N * b := by
    rw [pkcs7pad]
    simp only [List.length_append, List.length_replicate]
    have h1 := Nat.mod_lt P.length hb
    have h2 := Nat.div_add_mod P.length b
    have h3 : N * b = b * (P.length / b) + b := by rw [hN]; ring
    omega
  have hppval : validBytes (pkcs7pad b P) := by
    rw [pkcs7pad]
    apply validBytes_append hPval
    intro y hy
    rw [List.mem_replicate] at hy
    have := hy.2
    omega
  have hauxlv := cbcEncAux_valid henc N iv (pkcs7pad b P) hiv hivval
    hpplen hppval
  have hNdiv : (pkcs7pad b P).length / b = N := by
    rw [hpplen]; exact Nat.mul_div_cancel _ hb
  have hct : encryptCbc encB b iv P =
      iv ++ cbcEncAux encB b iv N (pkcs7pad b P) := by
    simp only [encryptCbc]
    rw [hNdiv]
  have hctlen : (encryptCbc encB b iv P).length = (N + 1) * b := by
    rw [hct, List.length_append, hiv, hauxlv.1]; ring
  have hctval : validBytes (encryptCbc encB b iv P) := by
    rw [hct]; exact validBytes_append hivval hauxlv.2
  have hblk0 : blkOf (encryptCbc encB b iv P) b 0 = iv := by
    rw [hct, blkOf]
    simp only [Nat.zero_mul, List.drop_zero]
    have h := List.take_left iv (cbcEncAux encB b iv N (pkcs7pad b P))
    rw [hiv] at h
    exact h
  have hblkS : ∀ u : Nat, blkOf (encryptCbc encB b iv P) b (u + 1) =
      blkOf (cbcEncAux encB b iv N (pkcs7pad b P)) b u := by
    intro u
    rw [hct, blkOf, blkOf]
    have h1 : (u + 1) * b = iv.length + u * b := by rw [hiv]; ring
    rw [h1, List.drop_append]
  have hdecCt : ∀ u, u < N →
      decB (blkOf (encryptCbc encB b iv P) b (u + 1)) =
        xorBytes (blkOf (pkcs7pad b P) b u)
          (blkOf (encryptCbc encB b iv P) b u) := by
    intro u hu
    rw [hblkS u,
      cbcEncAux_blk hb henc N iv (pkcs7pad b P) u hu hiv hivval hpplen
        hppval]
    have hXeq : (if u = 0 then iv
        else blkOf (cbcEncAux encB b iv N (pkcs7pad b P)) b (u - 1)) =
        blkOf (encryptCbc encB b iv P) b u := by
      cases u with
      | zero => rw [if_pos rfl, hblk0]
      | succ v =>
        rw [if_neg (Nat.succ_ne_zero v), show v + 1 - 1 = v from rfl]
        exact (hblkS v).symm
    rw [hXeq]
    apply hdec
    · have e1 : (u + 1) * b ≤ N * b := Nat.mul_le_mul_right b (by omega)
      have e2 : (u + 1) * b = u * b + b := by ring
      have e3 : (N + 1) * b = N * b + b := by ring
      rw [length_xorBytes, blkOf, blkOf, List.length_take,
        List.length_take, List.length_drop, List.length_drop, hpplen,
        hctlen]
      omega
    · exact validBytes_xorBytes
        (validBytes_take (validBytes_drop hppval _) _)
        (validBytes_take (validBytes_drop hctval _) _)
  exact attack_roundtrip hdecLen hb hb255 hiv hctlen hpplen hctval hppval
    hdecCt

theorem claim_C1_witness :
    decrypt [0, 1] 1 (cbcOracle id 1 [0]) = DResult.ok [1] := by
  have h := claim_C1 1 id id [0] [] (by decide) (by decide) rfl
    (fun y hy => by rw [List.mem_singleton] at hy; omega)
    (fun y hy => by cases hy)
    (fun x h1 h2 => ⟨h1, h2⟩) (fun x _ _ => rfl) (fun x h1 => h1)
  have he : encryptCbc id 1 [0] [] = [0, 1] := by decide
  have hp : pkcs7pad 1 [] = [1] := by decide
  rw [he, hp] at h
  exact h

end PaddingOracle

